import Mathlib

/-!
Verification of the rename planning and safe-execution engine of the
`renamer` tool (sources: `utils.py`, `normal_mode.py`, `video_mode.py`).

The Python code is shallowly embedded:
* file and directory names are `String` (Lean chars coincide with the
  code points Python indexes by);
* a rename plan is a `List (String × String)` of (source, target) pairs;
* the directory listing is a `List String` (the set of entry names);
* the filesystem seen by the two-phase committer is a function
  `String → Option Nat` assigning an abstract content id to each
  existing name;
* the regex engine is an external collaborator (spec §6), so a compiled
  pattern is embedded as an abstract `Matcher`: a function from a base
  name to the data Python's `re.Match` exposes (span, captured groups,
  `lastindex`); concrete matchers used in scenario theorems implement
  the behaviour of the concrete pattern on the concrete inputs;
* Python `while` loops are embedded with an explicit fuel that provably
  suffices (see the termination theorem for claim C9);
* fallible code (uncaught exceptions) returns `Except`.

String utilities mirror Python's code-point semantics by working on
`String.data`; `Char.toLower`-style operations are modelled on ASCII
(the repository only manipulates ASCII extensions and markers).
-/

/-- Digit character for a value `< 10`, as produced by Python's `str`. -/
def digitChar (n : Nat) : Char := Char.ofNat (48 + n)

/-- Little-endian decimal digits of `n` (empty for 0), with explicit fuel.
Fuel `n` always suffices because `n / 10 < n` for `n ≠ 0`. -/
def natDigitsRevFuel : Nat → Nat → List Char
  | 0, _ => []
  | f + 1, n => if n = 0 then [] else digitChar (n % 10) :: natDigitsRevFuel f (n / 10)

/-- Little-endian decimal digits of `n` (empty for 0). -/
def natDigitsRev (n : Nat) : List Char := natDigitsRevFuel n n

/-- Decimal rendering of a natural number, as Python's `str`. -/
def pyStrNatL (n : Nat) : List Char := if n = 0 then ['0'] else (natDigitsRev n).reverse

/-- Decimal rendering of an integer, as Python's `str` on `int`. -/
def pyStrIntL : Int → List Char
  | Int.ofNat n => pyStrNatL n
  | Int.negSucc m => '-' :: pyStrNatL (m + 1)

/-- String form of `pyStrIntL`. -/
def pyStrInt (i : Int) : String := ⟨pyStrIntL i⟩

/-- Value of a decimal digit character. -/
def digitVal (c : Char) : Nat := c.toNat - 48

/-- Is `c` an ASCII decimal digit? -/
def isDigitChar (c : Char) : Bool := 48 ≤ c.toNat && c.toNat ≤ 57

/-- Numeric value of little-endian digit list (inverse of `natDigitsRevFuel`). -/
def ofDigitsRev : List Char → Nat
  | [] => 0
  | c :: cs => digitVal c + 10 * ofDigitsRev cs

/-- Numeric value of a big-endian digit list, accumulator style
(the way a left-to-right parse accumulates). -/
def ofDigitsAcc : List Char → Nat → Nat
  | [], acc => acc
  | c :: cs, acc => ofDigitsAcc cs (acc * 10 + digitVal c)

/-- ASCII whitespace, the fragment of Python's `str.strip` default set
relevant to file names. -/
def isSpaceChar (c : Char) : Bool := c = ' ' || c = '\t' || c = '\n' || c = '\r'

/-- Tail of a Python `int()` digit body, after a digit has been read:
digits, optionally separated by single underscores. -/
def pyIntDigitsTail : List Char → Option (List Char)
  | [] => some []
  | c :: rest =>
      if isDigitChar c then (pyIntDigitsTail rest).map (c :: ·)
      else if c = '_' then
        match rest with
        | [] => none
        | r :: rest2 => if isDigitChar r then (pyIntDigitsTail rest2).map (r :: ·) else none
      else none

/-- Digit body of a Python `int()` literal: a digit followed by digits
optionally separated by single underscores (`int("1_0") == 10`,
`int("1__0")` and `int("_1")` fail). Returns the digit characters. -/
def pyIntDigits : List Char → Option (List Char)
  | [] => none
  | c :: rest => if isDigitChar c then (pyIntDigitsTail rest).map (c :: ·) else none

/-- Strip leading and trailing whitespace, as Python `str.strip()`. -/
def stripWS (s : List Char) : List Char :=
  ((s.dropWhile fun c => isSpaceChar c).reverse.dropWhile fun c => isSpaceChar c).reverse

/-- Python `int(s)` on a string: strip whitespace, optional sign, decimal
digit body. `none` models `ValueError`. (Non-ASCII numerals are outside the
model.) -/
def pyIntL (s : List Char) : Option Int :=
  match stripWS s with
  | [] => none
  | c :: rest =>
      if c = '-' then (pyIntDigits rest).map (fun ds => -(Int.ofNat (ofDigitsAcc ds 0)))
      else if c = '+' then (pyIntDigits rest).map (fun ds => Int.ofNat (ofDigitsAcc ds 0))
      else (pyIntDigits (c :: rest)).map (fun ds => Int.ofNat (ofDigitsAcc ds 0))

/-- Python `int(s)` on a `String`. -/
def pyInt (s : String) : Option Int := pyIntL s.data

/-- Python `str.zfill`: left-pad with zeros to `width`, keeping a leading
sign in front of the padding. -/
def pyZfillL (s : List Char) (width : Nat) : List Char :=
  if s.length ≥ width then s
  else
    match s with
    | [] => List.replicate width '0'
    | c :: rest =>
        if c = '-' ∨ c = '+' then c :: (List.replicate (width - s.length) '0' ++ rest)
        else List.replicate (width - s.length) '0' ++ (c :: rest)

/-- `utils.format_number`: render `num`, zero-padded to `padding_width`
digits when `padding_width > 0`. (`padding_width` is validated non-negative
by `ask_numbering_config`; a Python negative width behaves like 0, so `Nat`
loses nothing.) -/
def format_number (num : Int) (padding_width : Nat) : String :=
  if padding_width > 0 then ⟨pyZfillL (pyStrIntL num) padding_width⟩ else ⟨pyStrIntL num⟩

-- ------------------------------------------------------------------
-- Round-trip and injectivity lemmas for the numeric renderings.
-- ------------------------------------------------------------------

theorem natDigitsRevFuel_eq : ∀ n f, n ≤ f → natDigitsRevFuel f n = natDigitsRev n := by
  intro n
  induction n using Nat.strong_induction_on with
  | _ n ih =>
    intro f hf
    match f with
    | 0 =>
      have hn : n = 0 := by omega
      subst hn; rfl
    | f + 1 =>
      by_cases hn : n = 0
      · subst hn; simp [natDigitsRevFuel, natDigitsRev]
      · have h1 : natDigitsRevFuel (f + 1) n = digitChar (n % 10) :: natDigitsRevFuel f (n / 10) := by
          simp [natDigitsRevFuel, hn]
        obtain ⟨m, rfl⟩ : ∃ m, n = m + 1 := ⟨n - 1, by omega⟩
        have h2 : natDigitsRev (m + 1) =
            digitChar ((m + 1) % 10) :: natDigitsRevFuel m ((m + 1) / 10) := by
          simp [natDigitsRev, natDigitsRevFuel]
        rw [h1, h2]
        congr 1
        have hlt : (m + 1) / 10 < m + 1 := Nat.div_lt_self (by omega) (by omega)
        rw [ih ((m + 1) / 10) hlt f (by omega), ih ((m + 1) / 10) hlt m (by omega)]

theorem natDigitsRev_succ (n : Nat) (h : n ≠ 0) :
    natDigitsRev n = digitChar (n % 10) :: natDigitsRev (n / 10) := by
  obtain ⟨m, rfl⟩ : ∃ m, n = m + 1 := ⟨n - 1, by omega⟩
  have h2 : natDigitsRev (m + 1) =
      digitChar ((m + 1) % 10) :: natDigitsRevFuel m ((m + 1) / 10) := by
    simp [natDigitsRev, natDigitsRevFuel]
  rw [h2, natDigitsRevFuel_eq ((m + 1) / 10) m
    (by have := Nat.div_lt_self (Nat.succ_pos m) (show 1 < 10 by omega); omega)]

theorem digitVal_digitChar (n : Nat) (h : n < 10) : digitVal (digitChar n) = n := by
  interval_cases n <;> decide

theorem isDigitChar_digitChar (n : Nat) (h : n < 10) : isDigitChar (digitChar n) = true := by
  interval_cases n <;> decide

theorem ofDigitsRev_natDigitsRev (n : Nat) : ofDigitsRev (natDigitsRev n) = n := by
  induction n using Nat.strong_induction_on with
  | _ n ih =>
    by_cases hn : n = 0
    · subst hn; rfl
    · rw [natDigitsRev_succ n hn]
      simp only [ofDigitsRev]
      rw [digitVal_digitChar _ (Nat.mod_lt n (by omega)),
        ih (n / 10) (Nat.div_lt_self (Nat.pos_of_ne_zero hn) (by omega))]
      omega

theorem natDigitsRev_injective : Function.Injective natDigitsRev := by
  intro a b h
  have : ofDigitsRev (natDigitsRev a) = ofDigitsRev (natDigitsRev b) := by rw [h]
  simpa [ofDigitsRev_natDigitsRev] using this

theorem natDigitsRev_ne_nil (n : Nat) (h : n ≠ 0) : natDigitsRev n ≠ [] := by
  rw [natDigitsRev_succ n h]; simp

theorem pyStrNatL_injective : Function.Injective pyStrNatL := by
  intro a b h
  by_cases ha : a = 0 <;> by_cases hb : b = 0
  · omega
  · exfalso
    simp only [pyStrNatL, ha, hb, if_true, if_false] at h
    have hb' := natDigitsRev_ne_nil b hb
    rcases hr : natDigitsRev b with _ | ⟨c, cs⟩
    · exact hb' hr
    · rw [hr] at h
      have : ofDigitsRev (natDigitsRev b) = b := ofDigitsRev_natDigitsRev b
      rw [hr] at this
      rcases List.reverse_eq_iff.mp h.symm with h'
      simp at h'
      rcases h' with ⟨hc, hcs⟩
      subst hcs
      simp [ofDigitsRev, hc, digitVal] at this
      exact hb this.symm
  · exfalso
    simp only [pyStrNatL, ha, hb, if_true, if_false] at h
    have ha' := natDigitsRev_ne_nil a ha
    rcases hr : natDigitsRev a with _ | ⟨c, cs⟩
    · exact ha' hr
    · rw [hr] at h
      have : ofDigitsRev (natDigitsRev a) = a := ofDigitsRev_natDigitsRev a
      rw [hr] at this
      rcases List.reverse_eq_iff.mp h with h'
      simp at h'
      rcases h' with ⟨hc, hcs⟩
      subst hcs
      simp [ofDigitsRev, hc, digitVal] at this
      exact ha this.symm
  · simp only [pyStrNatL, ha, hb, if_false] at h
    exact natDigitsRev_injective (List.reverse_injective h)

theorem natDigitsRev_all_digits (n : Nat) : ∀ c ∈ natDigitsRev n, isDigitChar c = true := by
  induction n using Nat.strong_induction_on with
  | _ n ih =>
    by_cases hn : n = 0
    · subst hn; intro c hc; simp [natDigitsRev, natDigitsRevFuel] at hc
    · rw [natDigitsRev_succ n hn]
      intro c hc
      rcases List.mem_cons.mp hc with h | h
      · subst h; exact isDigitChar_digitChar _ (Nat.mod_lt n (by omega))
      · exact ih (n / 10) (Nat.div_lt_self (Nat.pos_of_ne_zero hn) (by omega)) c h

theorem pyStrNatL_all_digits (n : Nat) : ∀ c ∈ pyStrNatL n, isDigitChar c = true := by
  intro c hc
  by_cases hn : n = 0
  · subst hn; simp [pyStrNatL] at hc; subst hc; decide
  · simp only [pyStrNatL, hn, if_false, List.mem_reverse] at hc
    exact natDigitsRev_all_digits n c hc

theorem pyStrNatL_ne_nil (n : Nat) : pyStrNatL n ≠ [] := by
  by_cases hn : n = 0
  · subst hn; simp [pyStrNatL]
  · simp only [pyStrNatL, hn, if_false]
    intro h
    exact natDigitsRev_ne_nil n hn (by simpa using List.reverse_eq_nil_iff.mp h)

theorem pyStrIntL_injective : Function.Injective pyStrIntL := by
  intro a b h
  match a, b with
  | Int.ofNat m, Int.ofNat n =>
    simp only [pyStrIntL] at h
    exact congrArg Int.ofNat (pyStrNatL_injective h)
  | Int.ofNat m, Int.negSucc n =>
    exfalso
    simp only [pyStrIntL] at h
    have := pyStrNatL_all_digits m
    rcases hm : pyStrNatL m with _ | ⟨c, cs⟩
    · exact pyStrNatL_ne_nil m hm
    · rw [hm] at h
      have hc : isDigitChar c = true := by
        apply this; rw [hm]; exact List.mem_cons_self c cs
      have : c = '-' := by injection h
      rw [this] at hc
      exact absurd hc (by decide)
  | Int.negSucc m, Int.ofNat n =>
    exfalso
    simp only [pyStrIntL] at h
    have := pyStrNatL_all_digits n
    rcases hn : pyStrNatL n with _ | ⟨c, cs⟩
    · exact pyStrNatL_ne_nil n hn
    · rw [hn] at h
      have hc : isDigitChar c = true := by
        apply this; rw [hn]; exact List.mem_cons_self c cs
      have : '-' = c := by injection h
      rw [← this] at hc
      exact absurd hc (by decide)
  | Int.negSucc m, Int.negSucc n =>
    simp only [pyStrIntL] at h
    have h' : pyStrNatL (m + 1) = pyStrNatL (n + 1) := by injection h
    have hmn := pyStrNatL_injective h'
    have : m = n := by omega
    rw [this]

theorem natDigitsRev_getLast (n : Nat) (h : n ≠ 0) :
    ∃ d, (natDigitsRev n).getLast? = some (digitChar d) ∧ d < 10 ∧ d ≠ 0 := by
  induction n using Nat.strong_induction_on with
  | _ n ih =>
    rw [natDigitsRev_succ n h]
    by_cases h10 : n / 10 = 0
    · refine ⟨n % 10, ?_, Nat.mod_lt n (by omega), ?_⟩
      · rw [h10]
        have hz : natDigitsRev 0 = [] := rfl
        rw [hz]
        rfl
      · omega
    · obtain ⟨d, hd, hlt, hne⟩ :=
        ih (n / 10) (Nat.div_lt_self (Nat.pos_of_ne_zero h) (by omega)) h10
      refine ⟨d, ?_, hlt, hne⟩
      rcases hr : natDigitsRev (n / 10) with _ | ⟨c, cs⟩
      · exact absurd hr (natDigitsRev_ne_nil _ h10)
      · rw [hr] at hd
        rw [List.getLast?_cons_cons]
        exact hd

theorem pyStrNatL_head (n : Nat) :
    ∃ c cs, pyStrNatL n = c :: cs ∧ isDigitChar c = true ∧ (n ≠ 0 → c ≠ '0') := by
  by_cases hn : n = 0
  · subst hn
    exact ⟨'0', [], rfl, by decide, by intro h; exact absurd rfl h⟩
  · obtain ⟨d, hd, hlt, hne⟩ := natDigitsRev_getLast n hn
    rcases hr : (natDigitsRev n).reverse with _ | ⟨c, cs⟩
    · exact absurd (by simpa using hr) (natDigitsRev_ne_nil n hn)
    · refine ⟨c, cs, by simp [pyStrNatL, hn, hr], ?_, ?_⟩
      · have hcmem : c ∈ natDigitsRev n := by
          have : c ∈ (natDigitsRev n).reverse := by rw [hr]; exact List.mem_cons_self c cs
          simpa using this
        exact natDigitsRev_all_digits n c hcmem
      · intro _
        have hh : (natDigitsRev n).getLast? = some c := by
          rw [← List.head?_reverse, hr]; rfl
        rw [hd] at hh
        have hcd : digitChar d = c := by injection hh
        intro hcontra
        rw [← hcd] at hcontra
        have hd0 : d = 0 := by
          interval_cases d
          · rfl
          all_goals exact absurd hcontra (by decide)
        exact hne hd0

theorem dropWhile_all_false {p : Char → Bool} (l : List Char)
    (h : ∀ c ∈ l, p c = false) : l.dropWhile p = l := by
  cases l with
  | nil => rfl
  | cons c cs =>
    rw [List.dropWhile_cons]
    simp [h c (List.mem_cons_self c cs)]

theorem stripWS_id (l : List Char) (h : ∀ c ∈ l, isSpaceChar c = false) :
    stripWS l = l := by
  unfold stripWS
  rw [dropWhile_all_false l h,
    dropWhile_all_false l.reverse (by intro c hc; exact h c (by simpa using hc))]
  simp

theorem isSpaceChar_of_digit (c : Char) (h : isDigitChar c = true) : isSpaceChar c = false := by
  simp only [isSpaceChar, Bool.or_eq_false_iff, decide_eq_false_iff_not]
  refine ⟨⟨⟨?_, ?_⟩, ?_⟩, ?_⟩ <;> rintro rfl <;> exact absurd h (by decide)

theorem pyIntDigitsTail_all_digits (l : List Char)
    (h : ∀ c ∈ l, isDigitChar c = true) : pyIntDigitsTail l = some l := by
  induction l with
  | nil => rfl
  | cons c cs ih =>
    have hc : isDigitChar c = true := h c (List.mem_cons_self c cs)
    have ih' := ih (fun x hx => h x (List.mem_cons_of_mem c hx))
    rw [pyIntDigitsTail.eq_def]
    simp only [hc, if_true, ih']
    rfl

theorem pyIntDigits_all_digits (l : List Char) (hne : l ≠ [])
    (h : ∀ c ∈ l, isDigitChar c = true) : pyIntDigits l = some l := by
  match l, hne with
  | c :: rest, _ =>
    have hc : isDigitChar c = true := h c (List.mem_cons_self c rest)
    rw [pyIntDigits.eq_def]
    simp only [hc, if_true,
      pyIntDigitsTail_all_digits rest (fun x hx => h x (List.mem_cons_of_mem c hx))]
    rfl

theorem ofDigitsAcc_append (xs : List Char) (c : Char) (a : Nat) :
    ofDigitsAcc (xs ++ [c]) a = (ofDigitsAcc xs a) * 10 + digitVal c := by
  induction xs generalizing a with
  | nil => rfl
  | cons x xs ih =>
    rw [List.cons_append]
    show ofDigitsAcc (xs ++ [c]) (a * 10 + digitVal x)
      = ofDigitsAcc xs (a * 10 + digitVal x) * 10 + digitVal c
    exact ih (a * 10 + digitVal x)

theorem ofDigitsAcc_reverse (l : List Char) : ofDigitsAcc l.reverse 0 = ofDigitsRev l := by
  induction l with
  | nil => rfl
  | cons c cs ih =>
    rw [List.reverse_cons, ofDigitsAcc_append, ih, ofDigitsRev]
    ring

theorem ofDigitsAcc_pyStrNatL (n : Nat) : ofDigitsAcc (pyStrNatL n) 0 = n := by
  by_cases hn : n = 0
  · subst hn; rfl
  · simp only [pyStrNatL, hn, if_false]
    rw [ofDigitsAcc_reverse, ofDigitsRev_natDigitsRev]

/-- Round trip: Python `int(str(i)) == i`. -/
theorem pyInt_pyStrInt (i : Int) : pyInt (pyStrInt i) = some i := by
  show pyIntL (pyStrIntL i) = some i
  match i with
  | Int.ofNat n =>
    obtain ⟨c, cs, hl, hdig, _⟩ := pyStrNatL_head n
    have hall : ∀ x ∈ pyStrNatL n, isDigitChar x = true := pyStrNatL_all_digits n
    rw [pyIntL, show pyStrIntL (Int.ofNat n) = pyStrNatL n from rfl,
      stripWS_id _ (fun x hx => isSpaceChar_of_digit x (hall x hx)), hl]
    have hcm : c ≠ '-' := by
      intro hcontra; rw [hcontra] at hdig; exact absurd hdig (by decide)
    have hcp : c ≠ '+' := by
      intro hcontra; rw [hcontra] at hdig; exact absurd hdig (by decide)
    simp only [hcm, if_false, hcp]
    rw [← hl, pyIntDigits_all_digits _ (by rw [hl]; simp) hall]
    show some (Int.ofNat (ofDigitsAcc (pyStrNatL n) 0)) = some (Int.ofNat n)
    rw [ofDigitsAcc_pyStrNatL]
  | Int.negSucc m =>
    have hall : ∀ x ∈ pyStrNatL (m + 1), isDigitChar x = true := pyStrNatL_all_digits (m + 1)
    have hstrip : ∀ x ∈ pyStrIntL (Int.negSucc m), isSpaceChar x = false := by
      intro x hx
      rcases List.mem_cons.mp hx with h | h
      · subst h; decide
      · exact isSpaceChar_of_digit x (hall x h)
    rw [pyIntL, stripWS_id _ hstrip]
    show (if '-' = '-' then _ else _) = _
    rw [if_pos rfl, pyIntDigits_all_digits _ (pyStrNatL_ne_nil (m + 1)) hall]
    show some (-(Int.ofNat (ofDigitsAcc (pyStrNatL (m + 1)) 0))) = some (Int.negSucc m)
    rw [ofDigitsAcc_pyStrNatL]
    have hns : -Int.ofNat (m + 1) = Int.negSucc m := by
      rw [Int.negSucc_eq]
      norm_cast
    rw [hns]

/-- Drop leading zeros; the empty result is normalised to `"0"`. -/
def unpadNatL (s : List Char) : List Char :=
  let t := s.dropWhile (fun c => c = '0')
  if t = [] then ['0'] else t

/-- Undo zero padding of a canonically rendered integer. -/
def unpadCanonL : List Char → List Char
  | [] => unpadNatL []
  | c :: rest => if c = '-' then '-' :: unpadNatL rest else unpadNatL (c :: rest)

theorem dropWhile_replicate_append (k : Nat) (l : List Char) :
    (List.replicate k '0' ++ l).dropWhile (fun c => c = '0')
      = l.dropWhile (fun c => c = '0') := by
  induction k with
  | zero => rfl
  | succ k ih =>
    rw [List.replicate_succ, List.cons_append, List.dropWhile_cons]
    simp [ih]

theorem unpadNatL_zeros_pyStrNatL (k n : Nat) :
    unpadNatL (List.replicate k '0' ++ pyStrNatL n) = pyStrNatL n := by
  obtain ⟨c, cs, hl, _, hnz⟩ := pyStrNatL_head n
  unfold unpadNatL
  rw [dropWhile_replicate_append]
  by_cases hn : n = 0
  · subst hn; rfl
  · have hc0 : ¬ (c = '0') := hnz hn
    rw [hl, List.dropWhile_cons]
    simp [hc0]

theorem pyZfillL_cons_nosign (c : Char) (cs : List Char) (w : Nat)
    (h : ¬ (c = '-' ∨ c = '+')) :
    pyZfillL (c :: cs) w = List.replicate (w - (c :: cs).length) '0' ++ (c :: cs) := by
  unfold pyZfillL
  by_cases hlen : (c :: cs).length ≥ w
  · rw [if_pos hlen]
    have hz : w - (c :: cs).length = 0 := by omega
    rw [hz]
    rfl
  · rw [if_neg hlen]
    simp only [h, if_false]

theorem pyZfillL_cons_sign (c : Char) (cs : List Char) (w : Nat)
    (h : c = '-' ∨ c = '+') :
    pyZfillL (c :: cs) w = c :: (List.replicate (w - (c :: cs).length) '0' ++ cs) := by
  unfold pyZfillL
  by_cases hlen : (c :: cs).length ≥ w
  · rw [if_pos hlen]
    have hz : w - (c :: cs).length = 0 := by omega
    rw [hz]
    rfl
  · rw [if_neg hlen]
    simp only [h, if_true]

theorem unpadCanonL_pyZfillL (i : Int) (w : Nat) :
    unpadCanonL (pyZfillL (pyStrIntL i) w) = pyStrIntL i := by
  match i with
  | Int.ofNat n =>
    obtain ⟨c, cs, hl, hdig, _⟩ := pyStrNatL_head n
    have hcm : ¬ (c = '-' ∨ c = '+') := by
      rintro (rfl | rfl) <;> exact absurd hdig (by decide)
    show unpadCanonL (pyZfillL (pyStrNatL n) w) = pyStrNatL n
    rw [hl, pyZfillL_cons_nosign c cs w hcm]
    cases hw : w - (c :: cs).length with
    | zero =>
      show unpadCanonL (c :: cs) = c :: cs
      rw [unpadCanonL]
      have hcm' : c ≠ '-' := fun hcontra => hcm (Or.inl hcontra)
      rw [if_neg hcm']
      have hz := unpadNatL_zeros_pyStrNatL 0 n
      simpa [hl] using hz
    | succ k =>
      rw [List.replicate_succ, List.cons_append, unpadCanonL,
        if_neg (show ('0' : Char) ≠ '-' by decide)]
      have hz := unpadNatL_zeros_pyStrNatL (k + 1) n
      rw [List.replicate_succ, List.cons_append, hl] at hz
      exact hz
  | Int.negSucc m =>
    show unpadCanonL (pyZfillL ('-' :: pyStrNatL (m + 1)) w) = '-' :: pyStrNatL (m + 1)
    rw [pyZfillL_cons_sign _ _ _ (Or.inl rfl), unpadCanonL, if_pos rfl,
      unpadNatL_zeros_pyStrNatL]

/-- `format_number` is injective in the rendered number, for a fixed padding
width: distinct counters always render to distinct suffix strings. -/
theorem format_number_injective (w : Nat) (a b : Int)
    (h : format_number a w = format_number b w) : a = b := by
  unfold format_number at h
  by_cases hw : w > 0
  · rw [if_pos hw, if_pos hw] at h
    have hdata : pyZfillL (pyStrIntL a) w = pyZfillL (pyStrIntL b) w := by
      injection h
    have hun := congrArg unpadCanonL hdata
    rw [unpadCanonL_pyZfillL, unpadCanonL_pyZfillL] at hun
    exact pyStrIntL_injective hun
  · rw [if_neg hw, if_neg hw] at h
    have hdata : pyStrIntL a = pyStrIntL b := by injection h
    exact pyStrIntL_injective hdata

-- ------------------------------------------------------------------
-- String utilities (Python code-point semantics, via `String.data`).
-- ------------------------------------------------------------------

/-- `String` form of `pyStrNatL`. -/
def pyStrNat (n : Nat) : String := ⟨pyStrNatL n⟩

/-- Python slicing `s[:n]` by code points. -/
def strTake (s : String) (n : Nat) : String := ⟨s.data.take n⟩

/-- Python slicing `s[n:]` by code points. -/
def strDrop (s : String) (n : Nat) : String := ⟨s.data.drop n⟩

/-- ASCII fragment of Python `str.lower` (the repo only lowers extensions). -/
def lowerChar (c : Char) : Char :=
  if 'A' ≤ c ∧ c ≤ 'Z' then Char.ofNat (c.toNat + 32) else c

/-- Python `str.lower`, ASCII fragment. -/
def strLower (s : String) : String := ⟨s.data.map lowerChar⟩

/-- Index of the last `'.'` in the list, if any (Python `str.rfind('.')`). -/
def lastDotIdxAux : List Char → Nat → Option Nat → Option Nat
  | [], _, acc => acc
  | c :: rest, i, acc => lastDotIdxAux rest (i + 1) (if c = '.' then some i else acc)

/-- Index of the last `'.'` (Python `str.rfind('.')`, `none` for -1). -/
def lastDotIdx (s : List Char) : Option Nat := lastDotIdxAux s 0 none

/-- `os.path.splitext` on a bare file name (plan names contain no path
separator): split at the last dot provided some earlier character is not a
dot (so `".bashrc"` and `"..."` have no extension). -/
def splitextL (s : List Char) : List Char × List Char :=
  match lastDotIdx s with
  | none => (s, [])
  | some d => if (s.take d).any (fun c => c != '.') then (s.take d, s.drop d) else (s, [])

/-- `os.path.splitext` on `String`s. -/
def splitext (s : String) : String × String :=
  ((⟨(splitextL s.data).1⟩ : String), (⟨(splitextL s.data).2⟩ : String))

/-- `pathlib.PurePath.suffix` of a bare file name: `name[i:]` for the last
dot index `i` when `0 < i < len - 1`, else `""`. -/
def pathSuffix (s : String) : String :=
  match lastDotIdx s.data with
  | none => ""
  | some i => if 0 < i ∧ i < s.data.length - 1 then ⟨s.data.drop i⟩ else ""

/-- `pathlib.PurePath.stem` of a bare file name. -/
def pathStem (s : String) : String :=
  match lastDotIdx s.data with
  | none => s
  | some i => if 0 < i ∧ i < s.data.length - 1 then ⟨s.data.take i⟩ else s

/-- `re.sub(r'^\.+', '', t)` then `re.sub(r'\.+$', '', t)`: strip leading and
trailing dots. -/
def stripDots (s : String) : String :=
  ⟨((s.data.dropWhile fun c => c = '.').reverse.dropWhile fun c => c = '.').reverse⟩

/-- `to_prefix[:-1] if to_prefix.endswith(".") else to_prefix`
(from `utils.build_plans`). -/
def dropTrailingDot (s : String) : String :=
  if s.data.getLast? = some '.' then ⟨s.data.take (s.data.length - 1)⟩ else s

/-- One scan step of Python `str.replace` with nonempty pattern, fuelled by
the input length (each step consumes at least one character, so fuel
`s.length` suffices). -/
def replaceFuel (pat rep : List Char) : Nat → List Char → List Char
  | _, [] => []
  | 0, s => s
  | fuel + 1, c :: rest =>
      if pat.isPrefixOf (c :: rest) then
        rep ++ replaceFuel pat rep fuel (rest.drop (pat.length - 1))
      else c :: replaceFuel pat rep fuel rest

/-- Python `s.replace(pat, rep)` (all occurrences, leftmost,
non-overlapping; the empty pattern inserts `rep` at every position). -/
def replaceAllStr (pat rep s : String) : String :=
  if pat.data = [] then ⟨rep.data ++ s.data.flatMap (fun c => c :: rep.data)⟩
  else ⟨replaceFuel pat.data rep.data s.data.length s.data⟩

-- ------------------------------------------------------------------
-- The regex collaborator interface and `utils.pick_parts`.
-- ------------------------------------------------------------------

/-- What Python's `re.Match` exposes to this code: the span of the match in
code points, the captured groups 1..N (`none` = group did not participate),
and `lastindex` (highest participating group index, `none` if no group
participated). -/
structure MatchRes where
  mstart : Nat
  mstop : Nat
  groups : List (Option String)
  lastindex : Option Nat
deriving DecidableEq

/-- A compiled pattern, embedded as its `search` behaviour on base names
(the regex engine is an external collaborator, spec §6). -/
def Matcher : Type := String → Option MatchRes

/-- `utils.pick_parts` (with `preserve_format=False`, the only value used by
any caller in the repo): try matchers in order; on a match, require a
participating capture group, and parse group 1 as an `int`, rendering it
back with `str`. `IndexError`/`ValueError` are caught and fall through to
the next pattern; `int(None)` — group 1 present in the pattern but not
participating while a later group does — raises an uncaught `TypeError`,
modelled as `.error ()`. -/
def pick_parts (basename_no_ext : String) : List Matcher → Except Unit (Option (String × String × String))
  | [] => .ok none
  | reobj :: rest =>
      match reobj basename_no_ext with
      | none => pick_parts basename_no_ext rest
      | some m =>
          match m.lastindex with
          | none => pick_parts basename_no_ext rest
          | some 0 => pick_parts basename_no_ext rest
          | some (_ + 1) =>
              match m.groups.get? 0 with
              | none => pick_parts basename_no_ext rest
              | some none => .error ()
              | some (some g) =>
                  match pyInt g with
                  | none => pick_parts basename_no_ext rest
                  | some n =>
                      .ok (some (strTake basename_no_ext m.mstart, pyStrInt n,
                        strDrop basename_no_ext m.mstop))

/-- The `$i`-substitution loop of `normal_mode.build_plans_normal_mode`
(lines 248–255): for `i` from `lastindex` down to 1, replace every `"$i"` in
the accumulator with group `i`'s captured text (verbatim). A group index
beyond the pattern's group list (`IndexError`) is skipped; a group that did
not participate makes `str.replace` receive `None` and raise an uncaught
`TypeError`, modelled as `.error ()`. -/
def subst_refs (groups : List (Option String)) : Nat → String → Except Unit String
  | 0, acc => .ok acc
  | i + 1, acc =>
      match groups.get? i with
      | none => subst_refs groups i acc
      | some none => .error ()
      | some (some g) =>
          subst_refs groups i (replaceAllStr ⟨'$' :: pyStrNatL (i + 1)⟩ g acc)

-- ------------------------------------------------------------------
-- Directory model and the plan builders.
-- ------------------------------------------------------------------

/-- A regular file in the working directory, as the Plan Builder sees it:
its name and its modification time (an abstract tick used only as a sort
key). -/
structure FileEntry where
  name : String
  mtime : Nat
deriving DecidableEq

/-- The `sort_key` parameter: `"name"` or `"mtime"`. -/
inductive SortKey
  | byName
  | byMtime
deriving DecidableEq

/-- Insert keeping existing order among `le`-ties (stability of Python
`list.sort`). -/
def insertLE {α : Type} (le : α → α → Bool) (x : α) : List α → List α
  | [] => [x]
  | y :: ys => if le x y then x :: y :: ys else y :: insertLE le x ys

/-- Stable insertion sort (Python `list.sort` is stable; only the order it
produces matters to the embedding). -/
def insertionSort {α : Type} (le : α → α → Bool) : List α → List α
  | [] => []
  | x :: xs => insertLE le x (insertionSort le xs)

/-- Lexicographic code-point comparison (Python string `<`). -/
def listLtChars : List Char → List Char → Bool
  | [], [] => false
  | [], _ :: _ => true
  | _ :: _, [] => false
  | a :: as, b :: bs =>
      if a.toNat < b.toNat then true
      else if b.toNat < a.toNat then false
      else listLtChars as bs

/-- Python string `≤` by code points. -/
def strLeB (a b : String) : Bool := !(listLtChars b.data a.data)

/-- `p.name` comparison used by `files.sort(key=lambda p: p.name)`. -/
def fileLEByName (a b : FileEntry) : Bool := strLeB a.name b.name

/-- `st_mtime` comparison used by `files.sort(key=lambda p: p.stat().st_mtime)`. -/
def fileLEByMtime (a b : FileEntry) : Bool := decide (a.mtime ≤ b.mtime)

/-- `p.suffix.lower() == f".{ext.lower()}"`: the candidate filter shared by
the plan builders. -/
def extMatches (name ext : String) : Bool := strLower (pathSuffix name) == "." ++ strLower ext

/-- A match specification: empty (`match_src == ""`, sequential numbering)
or a list of compiled patterns (`compile_matchers` output; the compilation
itself is the regex collaborator's job). -/
inductive MatchSrc
  | emptyMatch
  | patterns (matchers : List Matcher)

/-- Sequential-numbering arm of `utils.build_plans`: enumerate sorted files
from `start`, skipping entries whose new name equals the current name. The
original extension `p.suffix` is kept. -/
def build_plans_empty_go (pfx : String) (padding_width : Nat) :
    List FileEntry → Int → List (String × String)
  | [], _ => []
  | p :: rest, n =>
      let n_str := format_number n padding_width
      let new_base := pfx ++ n_str
      let new_name := new_base ++ pathSuffix p.name
      let tail := build_plans_empty_go pfx padding_width rest (n + 1)
      if p.name ≠ new_name then (p.name, new_name) :: tail else tail

/-- The new-name computation of the pattern arm of `utils.build_plans`:
`ep` is re-parsed and re-rendered with the padding (`int(ep)` cannot fail
here, but the `except ValueError` fallback keeping `ep` verbatim is
modelled); `mid` is `"." + suffix` when a nonempty fixed suffix replaces
the tail, empty for an empty fixed suffix, and the dot-stripped original
tail (prefixed by `"."` when nonempty) otherwise. -/
def movieNewName (left : String) (suffix : Option String) (padding_width : Nat)
    (ep tail fname : String) : String :=
  let ep_formatted :=
    match pyInt ep with
    | some ep_num => format_number ep_num padding_width
    | none => ep
  let ep_seg := "E" ++ ep_formatted
  let mid :=
    match suffix with
    | some sfx => if sfx ≠ "" then "." ++ sfx else ""
    | none =>
        let t := stripDots tail
        if t ≠ "" then "." ++ t else ""
  left ++ "." ++ ep_seg ++ mid ++ pathSuffix fname

/-- Pattern arm of `utils.build_plans`: for each file whose stem matches,
compose `left + "." + "E" + ep_formatted + mid + p.suffix`. -/
def build_plans_matched_go (matchers : List Matcher) (left : String) (suffix : Option String)
    (padding_width : Nat) : List FileEntry → Except Unit (List (String × String))
  | [] => .ok []
  | p :: rest =>
      match pick_parts (pathStem p.name) matchers with
      | .error e => .error e
      | .ok none => build_plans_matched_go matchers left suffix padding_width rest
      | .ok (some (_, ep, tail)) =>
          let new_name := movieNewName left suffix padding_width ep tail p.name
          match build_plans_matched_go matchers left suffix padding_width rest with
          | .error e => .error e
          | .ok plans => .ok (if p.name ≠ new_name then (p.name, new_name) :: plans else plans)

/-- `utils.build_plans` (movie mode): generate the `(src, dst)` list.
`flags` is absorbed into the compiled `matchers`. `left` (the prefix with a
trailing dot removed) is hoisted out of the loop, where it is constant. -/
def build_plans (files : List FileEntry) (ext : String) (match_src : MatchSrc) (pfx : String)
    (suffix : Option String) (start : Int) (sort_key : SortKey) (padding_width : Nat) :
    Except Unit (List (String × String)) :=
  let cands := files.filter (fun p => extMatches p.name ext)
  match match_src with
  | .emptyMatch =>
      let sorted :=
        match sort_key with
        | .byMtime => insertionSort fileLEByMtime cands
        | .byName => insertionSort fileLEByName cands
      .ok (build_plans_empty_go pfx padding_width sorted start)
  | .patterns matchers =>
      build_plans_matched_go matchers (dropTrailingDot pfx) suffix padding_width cands

/-- Rendering of an optional string inside an f-string (`None` prints as
`"None"`). -/
def pyFStringOpt : Option String → String
  | none => "None"
  | some s => s

/-- First matcher whose `search` succeeds (template arm of
`build_plans_normal_mode` matches without the `lastindex` guard of
`pick_parts`). -/
def firstMatch (base : String) : List Matcher → Option MatchRes
  | [] => none
  | reobj :: rest =>
      match reobj base with
      | some m => some m
      | none => firstMatch base rest

/-- Sequential-numbering arm of `build_plans_normal_mode`: like the movie
version but the extension is replaced by `new_ext`. -/
def build_plans_normal_empty_go (pfx : Option String) (padding_width : Nat) (new_ext : String) :
    List FileEntry → Int → List (String × String)
  | [], _ => []
  | p :: rest, n =>
      let n_str := format_number n padding_width
      let new_base := pyFStringOpt pfx ++ n_str
      let new_name := new_base ++ "." ++ new_ext
      let tail := build_plans_normal_empty_go pfx padding_width new_ext rest (n + 1)
      if p.name ≠ new_name then (p.name, new_name) :: tail else tail

/-- `match_obj.lastindex or 0`. -/
def lastindexOrZero : Option Nat → Nat
  | some k => k
  | none => 0

/-- Template-substitution arm of `build_plans_normal_mode`: substitute
`$lastindex … $1` into the replacement expression (highest first). -/
def build_plans_template_go (matchers : List Matcher) (replace_expr : String) (new_ext : String) :
    List FileEntry → Except Unit (List (String × String))
  | [] => .ok []
  | p :: rest =>
      match firstMatch (pathStem p.name) matchers with
      | none => build_plans_template_go matchers replace_expr new_ext rest
      | some m =>
          match subst_refs m.groups (lastindexOrZero m.lastindex) replace_expr with
          | .error e => .error e
          | .ok new_base =>
              let new_name := new_base ++ "." ++ new_ext
              match build_plans_template_go matchers replace_expr new_ext rest with
              | .error e => .error e
              | .ok plans =>
                  .ok (if p.name ≠ new_name then (p.name, new_name) :: plans else plans)

/-- `to_prefix if to_prefix (truthy) else base` (fallback arm of
`build_plans_normal_mode`, pattern without capture groups). -/
def nogroupNewBase (pfx : Option String) (stem : String) : String :=
  match pfx with
  | some s => if s ≠ "" then s else stem
  | none => stem

def build_plans_nogroup_go (pfx : Option String) (new_ext : String) (matchers : List Matcher) :
    List FileEntry → List (String × String)
  | [] => []
  | p :: rest =>
      let tail := build_plans_nogroup_go pfx new_ext matchers rest
      match firstMatch (pathStem p.name) matchers with
      | none => tail
      | some _ =>
          let new_name := nogroupNewBase pfx (pathStem p.name) ++ "." ++ new_ext
          if p.name ≠ new_name then (p.name, new_name) :: tail else tail

/-- `normal_mode.build_plans_normal_mode`. The unused `suffix` parameter of
the Python signature is omitted. The template arm runs when
`total_capture_groups > 0` and `replace_expr` is truthy (not `None`, not
`""`), exactly as `elif total_capture_groups > 0 and replace_expr`. -/
def build_plans_normal_mode (files : List FileEntry) (ext : String) (match_src : MatchSrc)
    (pfx : Option String) (start : Int) (sort_key : SortKey) (padding_width : Nat)
    (replace_expr : Option String) (total_capture_groups : Nat) (new_ext : String) :
    Except Unit (List (String × String)) :=
  let cands := files.filter (fun p => extMatches p.name ext)
  match match_src with
  | .emptyMatch =>
      let sorted :=
        match sort_key with
        | .byMtime => insertionSort fileLEByMtime cands
        | .byName => insertionSort fileLEByName cands
      .ok (build_plans_normal_empty_go pfx padding_width new_ext sorted start)
  | .patterns matchers =>
      match replace_expr with
      | some r =>
          if 0 < total_capture_groups ∧ r ≠ "" then
            build_plans_template_go matchers r new_ext cands
          else .ok (build_plans_nogroup_go pfx new_ext matchers cands)
      | none => .ok (build_plans_nogroup_go pfx new_ext matchers cands)

-- ------------------------------------------------------------------
-- Conflict detection and auto-resolution.
-- ------------------------------------------------------------------

/-- `ConflictRecord`: duplicate target within the plan, or target already
present on disk under a name that is not itself a plan source. -/
inductive Conflict
  | duplicate (dst : String) (first second : String)
  | existsOnDisk (dst : String) (src : String)
deriving DecidableEq

/-- Loop of `utils.check_conflicts`: `tgt` maps each target seen so far to
the first source that claimed it. -/
def check_conflicts_go (existing : List String) (sources : List String) :
    List (String × String) → (String → Option String) → List Conflict
  | [], _ => []
  | (src, dst) :: rest, tgt =>
      let dupConfs : List Conflict :=
        match tgt dst with
        | some s0 => [Conflict.duplicate dst s0 src]
        | none => []
      let tgt' : String → Option String :=
        match tgt dst with
        | some _ => tgt
        | none => fun d => if d = dst then some src else tgt d
      let exConfs : List Conflict :=
        if dst ∈ existing ∧ ¬ dst ∈ sources then [Conflict.existsOnDisk dst src] else []
      dupConfs ++ exConfs ++ check_conflicts_go existing sources rest tgt'

/-- `utils.check_conflicts`: returns `(has_conflict, conflicts)`. -/
def check_conflicts (existing : List String) (plans : List (String × String)) :
    Bool × List Conflict :=
  let conflicts := check_conflicts_go existing (plans.map Prod.fst) plans (fun _ => none)
  (decide (0 < conflicts.length), conflicts)

/-- The inner `while new_dst in used_names: counter += 1` loop of
`resolve_conflicts_with_suffix`, with explicit fuel. Fuel
`used_names.length + 1` provably suffices (termination theorem for C9). -/
def find_free (base ext : String) (padding_width : Nat) (used_names : List String) :
    Nat → Int → Int
  | 0, counter => counter
  | fuel + 1, counter =>
      if (base ++ format_number counter padding_width ++ ext) ∈ used_names then
        find_free base ext padding_width used_names fuel (counter + 1)
      else counter

/-- `len(dst_to_sources.get(dst, []))`: how many plan entries target `dst`. -/
def countTargets (plans : List (String × String)) (dst : String) : Nat :=
  (plans.map Prod.snd).count dst

/-- `dst_count[dst] = start` on a target's first conflict,
`dst_count[dst] += 1` on each later one: the pre-search counter for the
current occurrence of `dst`, read off the stored per-target entry. -/
def nextCounter (start : Int) : Option Int → Int
  | none => start
  | some c => c + 1

/-- Loop of `utils.resolve_conflicts_with_suffix` over the plan entries.
State: `used_names` (existing files not being renamed away, plus names
assigned so far) and `dst_count` (the per-original-target counter map). -/
def resolve_go (start : Int) (padding_width : Nat) (tcount : String → Nat)
    (existing_excluding_sources : List String) :
    List (String × String) → List String → (String → Option Int) → List (String × String)
  | [], _, _ => []
  | (src, dst) :: rest, used_names, dst_count =>
      let has_duplicate := tcount dst > 1
      let exists_in_dir := dst ∈ existing_excluding_sources
      if has_duplicate ∨ exists_in_dir then
        let se := splitext dst
        let c0 : Int := nextCounter start (dst_count dst)
        let counter := find_free se.1 se.2 padding_width used_names (used_names.length + 1) c0
        let new_dst := se.1 ++ format_number counter padding_width ++ se.2
        (src, new_dst) ::
          resolve_go start padding_width tcount existing_excluding_sources rest
            (new_dst :: used_names) (fun d => if d = dst then some counter else dst_count d)
      else
        (src, dst) ::
          resolve_go start padding_width tcount existing_excluding_sources rest
            (dst :: used_names) dst_count

/-- `utils.resolve_conflicts_with_suffix`. (The `conflicts` parameter of the
Python function is never read — the function recomputes duplication and
existence per entry — so it is omitted.) -/
def resolve_conflicts_with_suffix (existing : List String) (plans : List (String × String))
    (start : Int) (padding_width : Nat) : List (String × String) :=
  let sources := plans.map Prod.fst
  let existing_excluding_sources := existing.filter (fun n => ¬ n ∈ sources)
  resolve_go start padding_width (countTargets plans) existing_excluding_sources plans
    existing_excluding_sources (fun _ => none)

/-- The suffixed candidate name for target `dst` at counter `c`:
`base_name + format_number(c, padding_width) + ext` with
`(base_name, ext) = splitext dst`. -/
def candName (dst : String) (padding_width : Nat) (c : Int) : String :=
  (splitext dst).1 ++ format_number c padding_width ++ (splitext dst).2

/-- Spec-side resolver loop for C3, written from the spec's words
(refinement side): every distinct original target name keeps its own
occurrence counter `occ`, all starting at `start`. A conflicting entry —
duplicated target, or target present among the untouched existing entries
`E` — receives the suffixed candidate at counter `start + occ dst` and
bumps only its own target's counter; a non-conflicting entry passes
through unchanged. -/
def resolveSpecPerTarget_go (start : Int) (padding_width : Nat)
    (plans₀ : List (String × String)) (E : List String) :
    List (String × String) → (String → Nat) → List (String × String)
  | [], _ => []
  | (src, dst) :: rest, occ =>
      if countTargets plans₀ dst > 1 ∨ dst ∈ E then
        (src, candName dst padding_width (start + (occ dst : Int))) ::
          resolveSpecPerTarget_go start padding_width plans₀ E rest
            (fun d => if d = dst then occ d + 1 else occ d)
      else
        (src, dst) :: resolveSpecPerTarget_go start padding_width plans₀ E rest occ

/-- Spec-side resolver for C3, top level: per-distinct-original-target
counters, all starting at `start`. -/
def resolveSpecPerTarget (existing : List String) (plans : List (String × String))
    (start : Int) (padding_width : Nat) : List (String × String) :=
  let sources := plans.map Prod.fst
  let E := existing.filter (fun n => ¬ n ∈ sources)
  resolveSpecPerTarget_go start padding_width plans E plans (fun _ => 0)

/-- Result of `check_conflicts_or_exit`: a plan, or `sys.exit(code)`. -/
inductive ResolveOutcome
  | ok (plans : List (String × String))
  | exit (code : Nat)
deriving DecidableEq

/-- `utils.check_conflicts_or_exit`. Interactive answers are oracle
parameters: `user_accepts` is the `ask_yes_no` reply and
`user_start`/`user_padding` the `ask_numbering_config` reply, consumed only
on the paths where the Python code asks. -/
def check_conflicts_or_exit (existing : List String) (plans : List (String × String))
    (start : Int) (padding_width : Nat) (auto_resolve : Bool) (user_accepts : Bool)
    (user_start : Int) (user_padding : Nat) : ResolveOutcome :=
  if (check_conflicts existing plans).1 = false then .ok plans
  else if auto_resolve then
    .ok (resolve_conflicts_with_suffix existing plans start padding_width)
  else if user_accepts then
    .ok (resolve_conflicts_with_suffix existing plans user_start user_padding)
  else .exit 2

-- ------------------------------------------------------------------
-- The two-phase committer on an abstract filesystem.
-- ------------------------------------------------------------------

/-- The filesystem as the committer sees it: each name maps to the content
id stored under it (`none` = no such file). -/
def FS : Type := String → Option Nat

/-- `os.replace(a, b)`: atomic rename, overwriting `b`; fails
(`FileNotFoundError`) when `a` does not exist. `osReplace fs a a` keeps the
file, as Python does. -/
def osReplace (fs : FS) (a b : String) : Option FS :=
  match fs a with
  | none => none
  | some c => some (fun x => if x = b then some c else if x = a then none else fs x)

/-- Run renames in order; on the first failure, stop immediately and return
the filesystem as it was at that point (`.error`). -/
def applyRenames : FS → List (String × String) → Except FS FS
  | fs, [] => .ok fs
  | fs, (a, b) :: rs =>
      match osReplace fs a b with
      | none => .error fs
      | some fs1 => applyRenames fs1 rs

/-- The rename sequence of `utils.two_phase_rename`: phase 1 moves every
source `src` to `src + temp_tag` in plan order; phase 2 moves every
`src + temp_tag` to its target in plan order. Both loops sit in one `try`,
so they form one sequence. -/
def two_phase_steps (tag : String) (plans : List (String × String)) : List (String × String) :=
  plans.map (fun sd => (sd.1, sd.1 ++ tag)) ++ plans.map (fun sd => (sd.1 ++ tag, sd.2))

/-- `utils.two_phase_rename`: run both phases; any failure aborts the
process with exit status 3, leaving the filesystem in its mid-commit state
(temp-tagged files may remain). `tag` stands for the
`f".__tmp__{int(time.time()*1000)}__"` marker, unique to the batch. -/
def two_phase_rename (tag : String) (plans : List (String × String)) (fs : FS) :
    Except (Nat × FS) FS :=
  match applyRenames fs (two_phase_steps tag plans) with
  | .error fsE => .error (3, fsE)
  | .ok fs2 => .ok fs2

-- ------------------------------------------------------------------
-- Candidate-name injectivity and the suffix-search loop.
-- ------------------------------------------------------------------

theorem strCat_inj (base ext x y : String)
    (h : base ++ x ++ ext = base ++ y ++ ext) : x = y := by
  have hd := congrArg String.data h
  rw [String.data_append, String.data_append, String.data_append, String.data_append] at hd
  exact String.ext (List.append_cancel_left (List.append_cancel_right hd))

/-- Distinct counters give distinct suffixed candidate names. -/
theorem cand_inj (base ext : String) (w : Nat) {a b : Int}
    (h : base ++ format_number a w ++ ext = base ++ format_number b w ++ ext) : a = b :=
  format_number_injective w a b (strCat_inj base ext _ _ h)

/-- Pigeonhole: among the `used.length + 1` candidates starting at `c0`,
one is not taken. -/
theorem exists_free_candidate (base ext : String) (w : Nat) (used : List String) (c0 : Int) :
    ∃ d : Nat, d ≤ used.length ∧ (base ++ format_number (c0 + d) w ++ ext) ∉ used := by
  by_contra hcon
  push_neg at hcon
  set cand : Nat → String := fun d => base ++ format_number (c0 + d) w ++ ext with hcand
  have hinj : Function.Injective cand := by
    intro i j hij
    have := cand_inj base ext w hij
    omega
  set l : List String := (List.range (used.length + 1)).map cand with hl
  have hnodup : l.Nodup := (List.nodup_range _).map hinj
  have hsub : l.toFinset ⊆ used.toFinset := by
    intro x hx
    rw [List.mem_toFinset] at hx ⊢
    rw [hl, List.mem_map] at hx
    obtain ⟨d, hd, rfl⟩ := hx
    rw [List.mem_range] at hd
    exact hcon d (by omega)
  have h1 : l.toFinset.card = l.length := List.toFinset_card_of_nodup hnodup
  have h2 := Finset.card_le_card hsub
  have h3 := used.toFinset_card_le
  have h4 : l.length = used.length + 1 := by rw [hl, List.length_map, List.length_range]
  omega

theorem find_free_of_min (base ext : String) (w : Nat) (used : List String) :
    ∀ (fuel : Nat) (c0 : Int) (k : Nat), k < fuel →
      (base ++ format_number (c0 + k) w ++ ext) ∉ used →
      (∀ j : Nat, j < k → (base ++ format_number (c0 + j) w ++ ext) ∈ used) →
      find_free base ext w used fuel c0 = c0 + k := by
  intro fuel
  induction fuel with
  | zero => intro c0 k hk; omega
  | succ fuel ih =>
    intro c0 k hk hfree hbusy
    match k with
    | 0 =>
      rw [find_free]
      have : (c0 + (0 : Nat)) = c0 := by omega
      rw [this] at hfree
      rw [if_neg hfree]
      omega
    | k + 1 =>
      have hmem : (base ++ format_number c0 w ++ ext) ∈ used := by
        have := hbusy 0 (by omega)
        have hc : (c0 + (0 : Nat)) = c0 := by omega
        rwa [hc] at this
      rw [find_free, if_pos hmem]
      have := ih (c0 + 1) k (by omega)
        (by have hc : (c0 + 1 + (k : Nat)) = c0 + ((k + 1 : Nat) : Int) := by push_cast; ring
            rwa [hc])
        (by intro j hj
            have hc : (c0 + 1 + (j : Nat)) = c0 + ((j + 1 : Nat) : Int) := by push_cast; ring
            rw [hc]
            exact hbusy (j + 1) (by omega))
      rw [this]
      push_cast
      ring

/-- C9. Implicit claim: the inner suffix search of
`resolve_conflicts_with_suffix` terminates. In the embedding the `while
new_dst in used_names` loop is `find_free`, invoked by `resolve_go` with
fuel `used_names.length + 1`; this theorem shows the fuel is never
exhausted: the loop stops at the first free counter `c0 + k`, reached after
`k ≤ used_names.length` strict increments, every earlier candidate being
taken. -/
theorem c9_find_free_terminates (base ext : String) (w : Nat) (used : List String) (c0 : Int) :
    ∃ k : Nat, k ≤ used.length ∧
      find_free base ext w used (used.length + 1) c0 = c0 + k ∧
      (base ++ format_number (c0 + k) w ++ ext) ∉ used ∧
      ∀ j : Nat, j < k → (base ++ format_number (c0 + j) w ++ ext) ∈ used := by
  have hex : ∃ d : Nat, (base ++ format_number (c0 + d) w ++ ext) ∉ used := by
    obtain ⟨d, _, hd⟩ := exists_free_candidate base ext w used c0
    exact ⟨d, hd⟩
  classical
  refine ⟨Nat.find hex, ?_, ?_, Nat.find_spec hex, fun j hj => ?_⟩
  · obtain ⟨d, hdle, hd⟩ := exists_free_candidate base ext w used c0
    exact le_trans (Nat.find_min' hex hd) hdle
  · refine find_free_of_min base ext w used (used.length + 1) c0 (Nat.find hex) ?_
      (Nat.find_spec hex) (fun j hj => ?_)
    · obtain ⟨d, hdle, hd⟩ := exists_free_candidate base ext w used c0
      have := Nat.find_min' hex hd
      omega
    · have := Nat.find_min hex hj
      simpa using this
  · have := Nat.find_min hex hj
    simpa using this

-- ------------------------------------------------------------------
-- Claim theorems: conflict resolver (C1, C3, C8) and exit codes (C7).
-- ------------------------------------------------------------------

/-- C1. The claimed guarantee — auto-resolution always returns a plan whose
targets are pairwise distinct and disjoint from untouched existing entries —
fails on the code: with files `bx.txt, cx.txt, x1y.txt` and candidate plan
`bx.txt→x.txt, cx.txt→x.txt, x1y.txt→x1.txt` (start 1, no padding),
auto-resolution rewrites the two `x.txt` entries to `x1.txt` and `x2.txt`
but passes the untouched `x1y.txt→x1.txt` entry through unchanged — its
target is never checked against `used_names` — so the returned plan
contains `x1.txt` twice. -/
theorem c1_resolved_plan_duplicate_targets :
    check_conflicts_or_exit ["bx.txt", "cx.txt", "x1y.txt"]
      [("bx.txt", "x.txt"), ("cx.txt", "x.txt"), ("x1y.txt", "x1.txt")] 1 0 true true 1 0
      = ResolveOutcome.ok [("bx.txt", "x1.txt"), ("cx.txt", "x2.txt"), ("x1y.txt", "x1.txt")]
    ∧ ¬ ([("bx.txt", "x1.txt"), ("cx.txt", "x2.txt"), ("x1y.txt", "x1.txt")].map
        Prod.snd).Nodup := by
  constructor
  · decide
  · decide

theorem resolve_go_per_target (start : Int) (padding : Nat)
    (plans₀ : List (String × String)) (E : List String)
    (ha : ∀ sd ∈ plans₀, ∀ k : Nat, k < countTargets plans₀ sd.2 →
      candName sd.2 padding (start + (k : Int)) ∉ E ∧
      candName sd.2 padding (start + (k : Int)) ∉ plans₀.map Prod.snd)
    (hc : ∀ sd ∈ plans₀, ∀ sd' ∈ plans₀, sd.2 ≠ sd'.2 →
      ∀ k : Nat, k < countTargets plans₀ sd.2 →
      ∀ k' : Nat, k' < countTargets plans₀ sd'.2 →
      candName sd.2 padding (start + (k : Int))
        ≠ candName sd'.2 padding (start + (k' : Int))) :
    ∀ (rest : List (String × String)) (used : List String) (occ : String → Nat)
      (dc : String → Option Int),
      (∀ sd ∈ rest, sd ∈ plans₀) →
      (∀ d, dc d = if occ d = 0 then none else some (start + (occ d : Int) - 1)) →
      (∀ d, occ d + countTargets rest d ≤ countTargets plans₀ d) →
      (∀ x ∈ used, x ∈ E ∨ x ∈ plans₀.map Prod.snd ∨
        ∃ d, d ∈ plans₀.map Prod.snd ∧ ∃ k : Nat, k < occ d ∧ k < countTargets plans₀ d ∧
          x = candName d padding (start + (k : Int))) →
      resolve_go start padding (countTargets plans₀) E rest used dc
        = resolveSpecPerTarget_go start padding plans₀ E rest occ := by
  intro rest
  induction rest with
  | nil =>
      intro used occ dc _ _ _ _
      rfl
  | cons hd tl ih =>
      obtain ⟨src, dst⟩ := hd
      intro used occ dc hin hdc hcap hused
      have hmem0 : (src, dst) ∈ (src, dst) :: tl := List.mem_cons_self _ _
      have hmem : (src, dst) ∈ plans₀ := hin (src, dst) hmem0
      have hdstmem : dst ∈ plans₀.map Prod.snd := List.mem_map.2 ⟨(src, dst), hmem, rfl⟩
      have hcnt_cons : ∀ d, countTargets ((src, dst) :: tl) d
          = countTargets tl d + (if d = dst then 1 else 0) := by
        intro d
        by_cases hdd : d = dst
        · subst hdd
          simp [countTargets, List.count_cons]
        · have hdd' : ¬ dst = d := fun h => hdd h.symm
          rw [if_neg hdd]
          simp [countTargets, List.count_cons, hdd']
      have hocc_lt : occ dst < countTargets plans₀ dst := by
        have h1 := hcap dst
        rw [hcnt_cons dst, if_pos rfl] at h1
        omega
      by_cases hconf : countTargets plans₀ dst > 1 ∨ dst ∈ E
      · have hc0 : nextCounter start (dc dst) = start + (occ dst : Int) := by
          rw [hdc dst]
          by_cases h0 : occ dst = 0
          · rw [if_pos h0, h0]
            simp [nextCounter]
          · rw [if_neg h0]
            simp only [nextCounter]
            ring
        have hfree : candName dst padding (start + (occ dst : Int)) ∉ used := by
          intro hxin
          rcases hused _ hxin with hE | hsnd | ⟨d, hdm, k, hk1, hk2, hxeq⟩
          · exact (ha (src, dst) hmem (occ dst) hocc_lt).1 hE
          · exact (ha (src, dst) hmem (occ dst) hocc_lt).2 hsnd
          · by_cases hdd : d = dst
            · subst hdd
              simp only [candName] at hxeq
              have := cand_inj (splitext d).1 (splitext d).2 padding hxeq
              omega
            · obtain ⟨sd', hsd', hsd2⟩ := List.mem_map.1 hdm
              have hne : ((src, dst) : String × String).2 ≠ sd'.2 := by
                rw [hsd2]
                exact fun h => hdd h.symm
              exact hc (src, dst) hmem sd' hsd' hne (occ dst) hocc_lt k
                (by rw [hsd2]; exact hk2) (by rw [hsd2]; exact hxeq)
        have hfree' : ¬ ((splitext dst).1 ++ format_number (start + (occ dst : Int)) padding
            ++ (splitext dst).2 ∈ used) := by
          simpa only [candName] using hfree
        have hff : find_free (splitext dst).1 (splitext dst).2 padding used
            (used.length + 1) (start + (occ dst : Int)) = start + (occ dst : Int) := by
          rw [find_free, if_neg hfree']
        simp only [resolve_go, resolveSpecPerTarget_go]
        rw [if_pos hconf, if_pos hconf, hc0, hff]
        simp only [candName]
        refine congrArg (List.cons _) ?_
        apply ih
        · exact fun sd hsd => hin sd (List.mem_cons_of_mem _ hsd)
        · intro d
          by_cases hdd : d = dst
          · subst hdd
            rw [if_pos rfl, if_pos rfl, if_neg (by omega : ¬ (occ d + 1 = 0))]
            congr 1
            push_cast
            ring
          · rw [if_neg hdd, if_neg hdd]
            exact hdc d
        · intro d
          have h1 := hcap d
          rw [hcnt_cons d] at h1
          by_cases hdd : d = dst
          · rw [if_pos hdd]
            rw [if_pos hdd] at h1
            omega
          · rw [if_neg hdd]
            rw [if_neg hdd] at h1
            omega
        · intro x hx
          rcases List.mem_cons.1 hx with rfl | hxu
          · refine Or.inr (Or.inr ⟨dst, hdstmem, occ dst, ?_, hocc_lt, ?_⟩)
            · rw [if_pos rfl]
              omega
            · rfl
          · rcases hused x hxu with h | h | ⟨d, hdm, k, hk1, hk2, hxeq⟩
            · exact Or.inl h
            · exact Or.inr (Or.inl h)
            · refine Or.inr (Or.inr ⟨d, hdm, k, ?_, hk2, hxeq⟩)
              by_cases hdd : d = dst
              · rw [if_pos hdd]
                omega
              · rw [if_neg hdd]
                omega
      · simp only [resolve_go, resolveSpecPerTarget_go]
        rw [if_neg hconf, if_neg hconf]
        refine congrArg (List.cons _) ?_
        apply ih
        · exact fun sd hsd => hin sd (List.mem_cons_of_mem _ hsd)
        · exact hdc
        · intro d
          have h1 := hcap d
          rw [hcnt_cons d] at h1
          by_cases hdd : d = dst
          · rw [if_pos hdd] at h1
            omega
          · rw [if_neg hdd] at h1
            omega
        · intro x hx
          rcases List.mem_cons.1 hx with rfl | hxu
          · exact Or.inr (Or.inl hdstmem)
          · exact hused x hxu

/-- C3. Per-original-target counters in auto-resolution. (i) Refinement
against the spec-side resolver `resolveSpecPerTarget`: for every directory
listing, plan, start and padding, provided no suffixed candidate of any
target collides with an existing name, with an original plan target, or
with a candidate of a different target, the code's resolver equals the
resolver that splits each conflicting entry's target with `splitext` and
suffixes the stem with the rendered counter `start + (occurrences of the
same original target so far)` — each distinct original target keeping its
own counter starting at `start`, incremented by one per subsequent
occurrence of that same target, never advanced by other targets.
(ii) Scenario C as a family: two entries both targeting `out.txt` become
`out{render(start)}.txt` and `out{render(start+1)}.txt` (start 1,
padding 0: `out1.txt`, `out2.txt`). (iii) When a suffixed candidate is
already taken (`out1.txt` exists untouched) the counter keeps incrementing
past it (`out2.txt`), and the next occurrence of the same original target
continues from the stored counter (`out3.txt`). -/
theorem c3_resolver_per_target_counters :
    (∀ (existing : List String) (plans : List (String × String)) (start : Int) (padding : Nat),
      (∀ sd ∈ plans, ∀ k : Nat, k < countTargets plans sd.2 →
        candName sd.2 padding (start + (k : Int)) ∉ existing ∧
        candName sd.2 padding (start + (k : Int)) ∉ plans.map Prod.snd) →
      (∀ sd ∈ plans, ∀ sd' ∈ plans, sd.2 ≠ sd'.2 →
        ∀ k : Nat, k < countTargets plans sd.2 →
        ∀ k' : Nat, k' < countTargets plans sd'.2 →
        candName sd.2 padding (start + (k : Int))
          ≠ candName sd'.2 padding (start + (k' : Int))) →
      resolve_conflicts_with_suffix existing plans start padding
        = resolveSpecPerTarget existing plans start padding)
    ∧ (∀ (a b : String) (start : Int) (padding : Nat),
      resolve_conflicts_with_suffix [a, b] [(a, "out.txt"), (b, "out.txt")] start padding
        = [(a, "out" ++ format_number start padding ++ ".txt"),
           (b, "out" ++ format_number (start + 1) padding ++ ".txt")])
    ∧ resolve_conflicts_with_suffix ["f1.txt", "f2.txt", "out1.txt"]
        [("f1.txt", "out.txt"), ("f2.txt", "out.txt")] 1 0
        = [("f1.txt", "out2.txt"), ("f2.txt", "out3.txt")] := by
  refine ⟨?_, ?_, ?_⟩
  · intro existing plans start padding ha hc
    have haE : ∀ sd ∈ plans, ∀ k : Nat, k < countTargets plans sd.2 →
        candName sd.2 padding (start + (k : Int))
          ∉ existing.filter (fun n => ¬ n ∈ plans.map Prod.fst) ∧
        candName sd.2 padding (start + (k : Int)) ∉ plans.map Prod.snd := by
      intro sd hsd k hk
      exact ⟨fun hmem => (ha sd hsd k hk).1 (List.mem_of_mem_filter hmem),
        (ha sd hsd k hk).2⟩
    show resolve_go start padding (countTargets plans)
        (existing.filter (fun n => ¬ n ∈ plans.map Prod.fst)) plans
        (existing.filter (fun n => ¬ n ∈ plans.map Prod.fst)) (fun _ => none)
      = resolveSpecPerTarget_go start padding plans
        (existing.filter (fun n => ¬ n ∈ plans.map Prod.fst)) plans (fun _ => 0)
    exact resolve_go_per_target start padding plans
      (existing.filter (fun n => ¬ n ∈ plans.map Prod.fst)) haE hc plans
      (existing.filter (fun n => ¬ n ∈ plans.map Prod.fst)) (fun _ => 0) (fun _ => none)
      (fun sd h => h) (fun d => by simp) (fun d => by simp) (fun x hx => Or.inl hx)
  · intro a b start padding
    have hne : ("out" ++ format_number (start + 1) padding ++ ".txt")
        ≠ "out" ++ format_number start padding ++ ".txt" := by
      intro h
      have := cand_inj "out" ".txt" padding h
      omega
    have hse : splitext "out.txt" = ("out", ".txt") := rfl
    simp only [resolve_conflicts_with_suffix, List.map_cons, List.map_nil]
    simp only [List.filter, List.mem_cons, List.mem_singleton]
    norm_num
    simp only [resolve_go, countTargets, List.map_cons, List.map_nil, hse, nextCounter,
      find_free]
    norm_num [List.count_cons, hne, nextCounter]
  · decide

theorem c3_resolver_per_target_counters_witness :
    resolve_conflicts_with_suffix ["s1.mkv", "s2.mkv", "s3.mkv", "s4.mkv"]
        [("s1.mkv", "a.txt"), ("s2.mkv", "b.txt"), ("s3.mkv", "a.txt"), ("s4.mkv", "b.txt")] 1 0
      = resolveSpecPerTarget ["s1.mkv", "s2.mkv", "s3.mkv", "s4.mkv"]
          [("s1.mkv", "a.txt"), ("s2.mkv", "b.txt"), ("s3.mkv", "a.txt"), ("s4.mkv", "b.txt")] 1 0
    ∧ resolveSpecPerTarget ["s1.mkv", "s2.mkv", "s3.mkv", "s4.mkv"]
          [("s1.mkv", "a.txt"), ("s2.mkv", "b.txt"), ("s3.mkv", "a.txt"), ("s4.mkv", "b.txt")] 1 0
      = [("s1.mkv", "a1.txt"), ("s2.mkv", "b1.txt"), ("s3.mkv", "a2.txt"), ("s4.mkv", "b2.txt")] :=
  ⟨c3_resolver_per_target_counters.1 ["s1.mkv", "s2.mkv", "s3.mkv", "s4.mkv"]
      [("s1.mkv", "a.txt"), ("s2.mkv", "b.txt"), ("s3.mkv", "a.txt"), ("s4.mkv", "b.txt")] 1 0
      (by decide) (by decide), by decide⟩

/-- C7. Exit codes: declining auto-resolution on a conflicted plan exits
with status 2; a rename failure anywhere in the two-phase commit stops
immediately and exits with status 3 (the state at the failure point, with
temp-tagged files possibly left, is carried in the error). -/
theorem c7_exit_codes :
    (∀ (existing : List String) (plans : List (String × String)) (start : Int)
        (padding : Nat) (user_start : Int) (user_padding : Nat),
      (check_conflicts existing plans).1 = true →
      check_conflicts_or_exit existing plans start padding false false user_start user_padding
        = ResolveOutcome.exit 2)
    ∧ (∀ (tag : String) (plans : List (String × String)) (fs : FS) (fsE : FS),
      applyRenames fs (two_phase_steps tag plans) = Except.error fsE →
      two_phase_rename tag plans fs = Except.error (3, fsE)) := by
  constructor
  · intro existing plans start padding user_start user_padding h
    unfold check_conflicts_or_exit
    rw [h]
    simp
  · intro tag plans fs fsE h
    unfold two_phase_rename
    rw [h]

theorem c7_exit_codes_witness :
    check_conflicts_or_exit ["a", "x"] [("a", "x")] 0 0 false false 0 0
      = ResolveOutcome.exit 2
    ∧ two_phase_rename "T" [("a", "b")] (fun _ => none)
      = Except.error (3, fun _ => none) := by
  constructor
  · exact c7_exit_codes.1 ["a", "x"] [("a", "x")] 0 0 0 0 (by decide)
  · exact c7_exit_codes.2 "T" [("a", "b")] (fun _ => none) (fun _ => none) rfl

theorem check_conflicts_go_nil (existing sources : List String) :
    ∀ (plans : List (String × String)) (tgt : String → Option String),
      (plans.map Prod.snd).Nodup →
      (∀ p ∈ plans, ¬ (p.2 ∈ existing ∧ p.2 ∉ sources)) →
      (∀ p ∈ plans, tgt p.2 = none) →
      check_conflicts_go existing sources plans tgt = [] := by
  intro plans
  induction plans with
  | nil => intro tgt _ _ _; rfl
  | cons hd rest ih =>
    intro tgt hnodup hex htgt
    obtain ⟨src, dst⟩ := hd
    have h0 : tgt dst = none := htgt (src, dst) (List.mem_cons_self _ _)
    have hexh : ¬ (dst ∈ existing ∧ dst ∉ sources) := hex (src, dst) (List.mem_cons_self _ _)
    rw [check_conflicts_go]
    simp only [h0, if_neg hexh]
    rw [List.nil_append, List.nil_append]
    have hnd : (dst :: rest.map Prod.snd).Nodup := hnodup
    apply ih
    · exact (List.nodup_cons.mp hnd).2
    · intro p hp; exact hex p (List.mem_cons_of_mem _ hp)
    · intro p hp
      have hne : p.2 ≠ dst := by
        have hmem : p.2 ∈ rest.map Prod.snd := List.mem_map_of_mem Prod.snd hp
        have hnotin := (List.nodup_cons.mp hnd).1
        intro hcontra
        rw [hcontra] at hmem
        exact hnotin hmem
      simp only [if_neg hne]
      exact htgt p (List.mem_cons_of_mem _ hp)

/-- C8. Idempotence of the Conflict Resolver on a conflict-free plan: if no
two entries share a target and no target equals an existing directory entry
that is not itself a plan source, `check_conflicts_or_exit` returns the plan
unchanged (for every combination of the interactive inputs). -/
theorem c8_conflict_free_plan_identity (existing : List String)
    (plans : List (String × String)) (start : Int) (padding : Nat)
    (auto_resolve user_accepts : Bool) (user_start : Int) (user_padding : Nat)
    (hnodup : (plans.map Prod.snd).Nodup)
    (hex : ∀ p ∈ plans, ¬ (p.2 ∈ existing ∧ p.2 ∉ plans.map Prod.fst)) :
    check_conflicts_or_exit existing plans start padding auto_resolve user_accepts
      user_start user_padding = ResolveOutcome.ok plans := by
  have hcc : check_conflicts existing plans = (false, []) := by
    unfold check_conflicts
    rw [check_conflicts_go_nil existing (plans.map Prod.fst) plans (fun _ => none) hnodup hex
      (fun p _ => rfl)]
    rfl
  unfold check_conflicts_or_exit
  rw [hcc]
  rfl

theorem c8_conflict_free_plan_identity_witness :
    check_conflicts_or_exit ["a.txt"] [("a.txt", "b.txt")] 0 2 true true 5 2
      = ResolveOutcome.ok [("a.txt", "b.txt")] :=
  c8_conflict_free_plan_identity ["a.txt"] [("a.txt", "b.txt")] 0 2 true true 5 2
    (by decide) (by decide)

-- ------------------------------------------------------------------
-- C5: the no-op skip invariant of the plan builders.
-- ------------------------------------------------------------------

theorem build_plans_empty_go_ne (pfx : String) (w : Nat) :
    ∀ (files : List FileEntry) (n : Int) (e : String × String),
      e ∈ build_plans_empty_go pfx w files n → e.1 ≠ e.2 := by
  intro files
  induction files with
  | nil => intro n e he; simp [build_plans_empty_go] at he
  | cons p rest ih =>
    intro n e he
    simp only [build_plans_empty_go] at he
    split at he
    next hcond =>
      rcases List.mem_cons.mp he with h | h
      · subst h; exact hcond
      · exact ih (n + 1) e h
    next hcond => exact ih (n + 1) e he

theorem build_plans_matched_go_ne (matchers : List Matcher) (left : String)
    (suffix : Option String) (w : Nat) :
    ∀ (files : List FileEntry) (P : List (String × String)),
      build_plans_matched_go matchers left suffix w files = .ok P →
      ∀ e ∈ P, e.1 ≠ e.2 := by
  intro files
  induction files with
  | nil =>
    intro P hP e he
    rw [build_plans_matched_go] at hP
    injection hP with h
    subst h
    simp at he
  | cons p rest ih =>
    intro P hP e he
    simp only [build_plans_matched_go] at hP
    split at hP
    · exact absurd hP (by simp)
    · exact ih P hP e he
    · split at hP
      · exact absurd hP (by simp)
      next plans hrest =>
        injection hP with h
        subst h
        split at he
        next hcond =>
          rcases List.mem_cons.mp he with h | h
          · subst h; exact hcond
          · exact ih plans hrest e h
        next hcond => exact ih plans hrest e he

theorem build_plans_normal_empty_go_ne (pfx : Option String) (w : Nat) (new_ext : String) :
    ∀ (files : List FileEntry) (n : Int) (e : String × String),
      e ∈ build_plans_normal_empty_go pfx w new_ext files n → e.1 ≠ e.2 := by
  intro files
  induction files with
  | nil => intro n e he; simp [build_plans_normal_empty_go] at he
  | cons p rest ih =>
    intro n e he
    simp only [build_plans_normal_empty_go] at he
    split at he
    next hcond =>
      rcases List.mem_cons.mp he with h | h
      · subst h; exact hcond
      · exact ih (n + 1) e h
    next hcond => exact ih (n + 1) e he

theorem build_plans_template_go_ne (matchers : List Matcher) (replace_expr new_ext : String) :
    ∀ (files : List FileEntry) (P : List (String × String)),
      build_plans_template_go matchers replace_expr new_ext files = .ok P →
      ∀ e ∈ P, e.1 ≠ e.2 := by
  intro files
  induction files with
  | nil =>
    intro P hP e he
    rw [build_plans_template_go] at hP
    injection hP with h
    subst h
    simp at he
  | cons p rest ih =>
    intro P hP e he
    simp only [build_plans_template_go] at hP
    split at hP
    · exact ih P hP e he
    · split at hP
      · exact absurd hP (by simp)
      · split at hP
        · exact absurd hP (by simp)
        next plans hrest =>
          injection hP with h
          subst h
          split at he
          next hcond =>
            rcases List.mem_cons.mp he with h | h
            · subst h; exact hcond
            · exact ih plans hrest e h
          next hcond => exact ih plans hrest e he

theorem build_plans_nogroup_go_ne (pfx : Option String) (new_ext : String)
    (matchers : List Matcher) :
    ∀ (files : List FileEntry) (e : String × String),
      e ∈ build_plans_nogroup_go pfx new_ext matchers files → e.1 ≠ e.2 := by
  intro files
  induction files with
  | nil => intro e he; simp [build_plans_nogroup_go] at he
  | cons p rest ih =>
    intro e he
    simp only [build_plans_nogroup_go] at he
    split at he
    · exact ih e he
    · split at he
      next hcond =>
        rcases List.mem_cons.mp he with h | h
        · subst h; exact hcond
        · exact ih e h
      next hcond => exact ih e he

/-- C5. No-op skip invariant: in every generation mode of both plan
builders (sequential numbering, prefix+episode+tail, template substitution,
and the no-capture-group fallback), no produced entry renames a file to its
own name. -/
theorem c5_no_noop_entries :
    (∀ (files : List FileEntry) (ext : String) (match_src : MatchSrc) (pfx : String)
        (suffix : Option String) (start : Int) (sort_key : SortKey) (padding : Nat)
        (P : List (String × String)),
      build_plans files ext match_src pfx suffix start sort_key padding = .ok P →
      ∀ e ∈ P, e.1 ≠ e.2)
    ∧ (∀ (files : List FileEntry) (ext : String) (match_src : MatchSrc)
        (pfx : Option String) (start : Int) (sort_key : SortKey) (padding : Nat)
        (replace_expr : Option String) (total_capture_groups : Nat) (new_ext : String)
        (P : List (String × String)),
      build_plans_normal_mode files ext match_src pfx start sort_key padding replace_expr
        total_capture_groups new_ext = .ok P →
      ∀ e ∈ P, e.1 ≠ e.2) := by
  constructor
  · intro files ext match_src pfx suffix start sort_key padding P hP
    cases match_src with
    | emptyMatch =>
      simp only [build_plans] at hP
      injection hP with h
      subst h
      exact build_plans_empty_go_ne pfx padding _ start
    | patterns matchers =>
      simp only [build_plans] at hP
      exact build_plans_matched_go_ne matchers (dropTrailingDot pfx) suffix padding _ P hP
  · intro files ext match_src pfx start sort_key padding replace_expr total new_ext P hP
    cases match_src with
    | emptyMatch =>
      simp only [build_plans_normal_mode] at hP
      injection hP with h
      subst h
      exact build_plans_normal_empty_go_ne pfx padding new_ext _ start
    | patterns matchers =>
      cases replace_expr with
      | none =>
        simp only [build_plans_normal_mode] at hP
        injection hP with h
        subst h
        intro e he
        exact build_plans_nogroup_go_ne pfx new_ext matchers _ e he
      | some r =>
        simp only [build_plans_normal_mode] at hP
        by_cases hc : 0 < total ∧ r ≠ ""
        · rw [if_pos hc] at hP
          exact build_plans_template_go_ne matchers r new_ext _ P hP
        · rw [if_neg hc] at hP
          injection hP with h
          subst h
          intro e he
          exact build_plans_nogroup_go_ne pfx new_ext matchers _ e he

theorem c5_no_noop_entries_witness :
    ("a.txt" : String) ≠ "file.01.txt" :=
  c5_no_noop_entries.1 [⟨"a.txt", 0⟩, ⟨"b.txt", 1⟩] "txt" MatchSrc.emptyMatch "file." none 1
    SortKey.byName 2 [("a.txt", "file.01.txt"), ("b.txt", "file.02.txt")] rfl
    ("a.txt", "file.01.txt") (by decide)

-- ------------------------------------------------------------------
-- C10: non-numeric / non-participating group-1 handling in pick_parts.
-- ------------------------------------------------------------------

/-- The Python regex `(a)?(\d)` searched on `"x5"`: match at span (1,2),
group 1 did not participate, group 2 captured `"5"`, `lastindex == 2`. -/
def matcherOptGroup : Matcher := fun b =>
  if b = "x5" then some ⟨1, 2, [none, some "5"], some 2⟩ else none

/-- The Python regex `(x)` searched on `"x"`: span (0,1), group 1 `"x"`
(not parseable as an integer), `lastindex == 1`. -/
def matcherValueErr : Matcher := fun b =>
  if b = "x" then some ⟨0, 1, [some "x"], some 1⟩ else none

/-- C10, counterexample. The claim says a match whose group-1 capture did
not participate is treated as non-matching and the file silently excluded.
But when group 1 did not participate while a later group did (pattern
`(a)?(\d)` on base `"x5"`), `int(m.group(1))` is `int(None)`: a `TypeError`
that the `except (IndexError, ValueError)` clause does not catch —
`pick_parts` raises and `build_plans` crashes instead of excluding the
file. -/
theorem c10_counterexample :
    pick_parts "x5" [matcherOptGroup] = Except.error ()
    ∧ build_plans [⟨"x5.mkv", 0⟩] "mkv" (MatchSrc.patterns [matcherOptGroup]) "P" none 0
        SortKey.byName 0 = Except.error () := by
  constructor
  · rfl
  · rfl

/-- C10, amended: a match falls through to the next pattern (and a file
matched by no pattern is silently excluded from the plan) when no capture
group participated at all (`lastindex` `None` or 0), when the pattern has
no group 1 (`IndexError`), or when group 1's captured text is not parseable
as a decimal integer (`ValueError`). (If group 1 did not participate while
a higher group did, an uncaught `TypeError` propagates instead — see the
counterexample.) -/
theorem c10_amended :
    (∀ (base : String) (ms : List Matcher),
      (∀ m ∈ ms, ∀ r : MatchRes, m base = some r →
        r.lastindex = none ∨ r.lastindex = some 0 ∨ r.groups.get? 0 = none ∨
        ∃ s, r.groups.get? 0 = some (some s) ∧ pyInt s = none) →
      pick_parts base ms = Except.ok none)
    ∧ (∀ (matchers : List Matcher) (left : String) (suffix : Option String) (w : Nat)
        (p : FileEntry) (rest : List FileEntry),
      pick_parts (pathStem p.name) matchers = Except.ok none →
      build_plans_matched_go matchers left suffix w (p :: rest)
        = build_plans_matched_go matchers left suffix w rest) := by
  constructor
  · intro base ms
    induction ms with
    | nil => intro _; rfl
    | cons m rest ih =>
      intro h
      have hrest := ih (fun m' hm' => h m' (List.mem_cons_of_mem m hm'))
      cases hm : m base with
      | none => simp only [pick_parts, hm]; exact hrest
      | some r =>
        rcases h m (List.mem_cons_self m rest) r hm with hli | hli | hg | ⟨s, hg, hpi⟩
        · simp only [pick_parts, hm, hli]; exact hrest
        · simp only [pick_parts, hm, hli]; exact hrest
        · cases hli : r.lastindex with
          | none => simp only [pick_parts, hm, hli]; exact hrest
          | some k =>
            cases k with
            | zero => simp only [pick_parts, hm, hli]; exact hrest
            | succ k => simp only [pick_parts, hm, hli, hg]; exact hrest
        · cases hli : r.lastindex with
          | none => simp only [pick_parts, hm, hli]; exact hrest
          | some k =>
            cases k with
            | zero => simp only [pick_parts, hm, hli]; exact hrest
            | succ k => simp only [pick_parts, hm, hli, hg, hpi]; exact hrest
  · intro matchers left suffix w p rest h
    simp only [build_plans_matched_go, h]

theorem c10_amended_witness :
    pick_parts "x" [matcherValueErr] = Except.ok none
    ∧ build_plans_matched_go [matcherValueErr] "P" none 0 [⟨"x.mkv", 0⟩]
      = build_plans_matched_go [matcherValueErr] "P" none 0 [] := by
  constructor
  · apply c10_amended.1
    intro m hm r hmr
    rw [List.mem_singleton] at hm
    subst hm
    have hr : r = ⟨0, 1, [some "x"], some 1⟩ := by
      have h : (some (⟨0, 1, [some "x"], some 1⟩ : MatchRes)) = some r := hmr
      injection h with h3
      exact h3.symm
    subst hr
    right
    right
    right
    exact ⟨"x", rfl, rfl⟩
  · exact c10_amended.2 [matcherValueErr] "P" none 0 ⟨"x.mkv", 0⟩ [] rfl

-- ------------------------------------------------------------------
-- C4: template substitution.
-- ------------------------------------------------------------------

theorem replaceFuel_no_dollar (ds rep : List Char) :
    ∀ (fuel : Nat) (s : List Char), (∀ c ∈ s, c ≠ '$') →
      replaceFuel ('$' :: ds) rep fuel s = s := by
  intro fuel
  induction fuel with
  | zero => intro s _; cases s <;> rfl
  | succ fuel ih =>
    intro s hs
    cases s with
    | nil => rfl
    | cons c rest =>
      have hc : c ≠ '$' := hs c (List.mem_cons_self c rest)
      have hpre : (('$' :: ds).isPrefixOf (c :: rest)) = false := by
        simp only [List.isPrefixOf]
        have : ('$' == c) = false := by
          simp only [beq_eq_false_iff_ne]
          exact fun hcontra => hc hcontra.symm
        simp [this]
      show (if ('$' :: ds).isPrefixOf (c :: rest) = true then
          rep ++ replaceFuel ('$' :: ds) rep fuel (rest.drop (('$' :: ds).length - 1))
        else c :: replaceFuel ('$' :: ds) rep fuel rest) = c :: rest
      rw [hpre]
      simp only [Bool.false_eq_true, if_false]
      rw [ih rest (fun x hx => hs x (List.mem_cons_of_mem c hx))]

theorem replaceFuel_boundary (ds rep post : List Char) (hpost : ∀ c ∈ post, c ≠ '$') :
    ∀ (pre : List Char) (fuel : Nat), pre.length + 1 ≤ fuel →
      (∀ c ∈ pre, c ≠ '$') →
      replaceFuel ('$' :: ds) rep fuel (pre ++ '$' :: ds ++ post) = pre ++ rep ++ post := by
  intro pre
  induction pre with
  | nil =>
    intro fuel hfuel _
    match fuel, hfuel with
    | fuel + 1, _ =>
      rw [List.nil_append, List.nil_append]
      have hpref : (('$' :: ds).isPrefixOf ('$' :: ds ++ post)) = true := by
        rw [List.isPrefixOf_iff_prefix]
        exact ⟨post, by simp⟩
      show (if ('$' :: ds).isPrefixOf ('$' :: ds ++ post) = true then
          rep ++ replaceFuel ('$' :: ds) rep fuel ((ds ++ post).drop (('$' :: ds).length - 1))
        else '$' :: replaceFuel ('$' :: ds) rep fuel (ds ++ post)) = rep ++ post
      rw [hpref]
      simp only [if_true]
      have hdrop : (ds ++ post).drop (('$' :: ds).length - 1) = post := by
        simp only [List.length_cons, Nat.add_sub_cancel]
        exact List.drop_left ds post
      rw [hdrop, replaceFuel_no_dollar ds rep fuel post hpost]
  | cons c pre' ih =>
    intro fuel hfuel hpre
    match fuel, hfuel with
    | fuel + 1, hf =>
      have hc : c ≠ '$' := hpre c (List.mem_cons_self c pre')
      have hpref : (('$' :: ds).isPrefixOf (c :: (pre' ++ '$' :: ds ++ post))) = false := by
        simp only [List.isPrefixOf]
        have : ('$' == c) = false := by
          simp only [beq_eq_false_iff_ne]
          exact fun hcontra => hc hcontra.symm
        simp [this]
      rw [List.cons_append]
      show (if ('$' :: ds).isPrefixOf (c :: (pre' ++ '$' :: ds ++ post)) = true then
          rep ++ replaceFuel ('$' :: ds) rep fuel
            ((pre' ++ '$' :: ds ++ post).drop (('$' :: ds).length - 1))
        else c :: replaceFuel ('$' :: ds) rep fuel (pre' ++ '$' :: ds ++ post))
        = (c :: pre') ++ rep ++ post
      rw [hpref]
      simp only [Bool.false_eq_true, if_false]
      rw [ih fuel (by simp only [List.length_cons] at hf; omega)
        (fun x hx => hpre x (List.mem_cons_of_mem c hx))]
      rfl

theorem replaceAllStr_no_dollar (ds : List Char) (rep s : String)
    (hs : ∀ c ∈ s.data, c ≠ '$') : replaceAllStr ⟨'$' :: ds⟩ rep s = s := by
  unfold replaceAllStr
  rw [if_neg (by simp)]
  rw [replaceFuel_no_dollar ds rep.data s.data.length s.data hs]

theorem subst_refs_no_dollar (groups : List (Option String)) :
    ∀ (i : Nat) (acc : String), (∀ c ∈ acc.data, c ≠ '$') →
      (∀ j : Nat, j < i → ∃ g, groups.get? j = some (some g)) →
      subst_refs groups i acc = .ok acc := by
  intro i
  induction i with
  | zero => intro acc _ _; rfl
  | succ i ih =>
    intro acc hacc hpart
    obtain ⟨g, hg⟩ := hpart i (by omega)
    rw [subst_refs, hg]
    show subst_refs groups i (replaceAllStr ⟨'$' :: pyStrNatL (i + 1)⟩ g acc) = Except.ok acc
    rw [replaceAllStr_no_dollar _ g acc hacc]
    exact ih acc hacc (fun j hj => hpart j (by omega))

/-- The Python regex `(a)(\$1)` searched on the stem `"a$1"` (file
`a$1.txt`): span (0,3), group 1 `"a"`, group 2 `"$1"`, `lastindex == 2`. -/
def matcherDollarCapture : Matcher := fun b =>
  if b = "a$1" then some ⟨0, 3, [some "a", some "$1"], some 2⟩ else none

/-- C4, counterexample. Template `"$2"` on a match capturing `g1 = "a"`,
`g2 = "$1"` (regex `(a)(\$1)` on file `a$1.txt`): after `$2` is replaced by
`"$1"`, the later `$1` pass re-substitutes that text, and the built target
`a.txt` does not contain group 2's captured text `"$1"` — the claim that the
resulting target always contains each referenced group's exact captured
text fails. -/
theorem c4_counterexample :
    build_plans_normal_mode [⟨"a$1.txt", 0⟩] "txt" (MatchSrc.patterns [matcherDollarCapture])
      none 0 SortKey.byName 0 (some "$2") 2 "txt"
      = Except.ok [("a$1.txt", "a.txt")]
    ∧ ¬ List.IsInfix "$1".data "a.txt".data := by
  constructor
  · rfl
  · decide

/-- C4, amended: substitution runs from the highest participating group
index down to 1, replacing each `$i` by group `i`'s captured text verbatim
(leading zeros preserved), *provided* no captured text re-creates a
reference (e.g. contains `$1`): (i) for a template `pre $k post` whose
literal parts and captured texts are `$`-free, the result is exactly
`pre ++ gk ++ post`; (ii) high-to-low order keeps `$1` from corrupting
`$10`: with ten groups, `"$10x$1"` becomes `g10 ++ "x" ++ g1`; (iii) a
captured `"007"` flows verbatim (not renumbered) into the plan target. -/
theorem c4_amended :
    (∀ (k : Nat) (pre post gk : String) (groups : List (Option String)),
      0 < k →
      groups.get? (k - 1) = some (some gk) →
      (∀ j : Nat, j + 1 < k → ∃ g, groups.get? j = some (some g)) →
      (∀ c ∈ pre.data, c ≠ '$') →
      (∀ c ∈ post.data, c ≠ '$') →
      (∀ c ∈ gk.data, c ≠ '$') →
      subst_refs groups k (pre ++ ⟨'$' :: pyStrNatL k⟩ ++ post) = .ok (pre ++ gk ++ post))
    ∧ subst_refs [some "A", some "B", some "C", some "D", some "E2", some "F", some "G",
        some "H", some "I", some "J"] 10 "$10x$1" = .ok "JxA"
    ∧ build_plans_normal_mode [⟨"IMG007.jpg", 0⟩] "jpg"
        (MatchSrc.patterns [fun b => if b = "IMG007" then
          some ⟨0, 6, [some "007"], some 1⟩ else none])
        none 0 SortKey.byName 0 (some "pic$1") 1 "jpg"
        = Except.ok [("IMG007.jpg", "pic007.jpg")] := by
  refine ⟨?_, by rfl, by rfl⟩
  intro k pre post gk groups hk hgk hpart hpre hpost hgkd
  match k, hk with
  | k + 1, _ =>
    rw [subst_refs]
    have hidx : k + 1 - 1 = k := by omega
    rw [hidx] at hgk
    rw [hgk]
    rw [show (match some (some gk) with
        | none => subst_refs groups k (pre ++ (⟨'$' :: pyStrNatL (k + 1)⟩ : String) ++ post)
        | some none => (Except.error () : Except Unit String)
        | some (some g) => subst_refs groups k
            (replaceAllStr ⟨'$' :: pyStrNatL (k + 1)⟩ g
              (pre ++ (⟨'$' :: pyStrNatL (k + 1)⟩ : String) ++ post)))
        = subst_refs groups k
            (replaceAllStr ⟨'$' :: pyStrNatL (k + 1)⟩ gk
              (pre ++ (⟨'$' :: pyStrNatL (k + 1)⟩ : String) ++ post)) from rfl]
    have hdata : (pre ++ (⟨'$' :: pyStrNatL (k + 1)⟩ : String) ++ post).data
        = pre.data ++ '$' :: pyStrNatL (k + 1) ++ post.data := by
      rw [String.data_append, String.data_append]
    have hrepl : replaceAllStr ⟨'$' :: pyStrNatL (k + 1)⟩ gk
        (pre ++ ⟨'$' :: pyStrNatL (k + 1)⟩ ++ post) = pre ++ gk ++ post := by
      unfold replaceAllStr
      rw [if_neg (by simp)]
      apply String.ext
      rw [hdata]
      have hlen : pre.data.length + 1 ≤ (pre.data ++ '$' :: pyStrNatL (k + 1) ++ post.data).length := by
        simp [List.length_append]
      rw [replaceFuel_boundary (pyStrNatL (k + 1)) gk.data post.data hpost pre.data _
        hlen hpre]
      rw [String.data_append, String.data_append]
    rw [hrepl]
    exact subst_refs_no_dollar groups k (pre ++ gk ++ post)
      (by
        intro c hc
        rw [String.data_append, String.data_append] at hc
        rcases List.mem_append.mp hc with hc | hc
        · rcases List.mem_append.mp hc with hc | hc
          · exact hpre c hc
          · exact hgkd c hc
        · exact hpost c hc)
      (fun j hj => hpart j (by omega))

theorem c4_amended_witness :
    subst_refs [some "007"] 1 ("p" ++ ⟨'$' :: pyStrNatL 1⟩ ++ "q") = .ok ("p" ++ "007" ++ "q") :=
  c4_amended.1 1 "p" "q" "007" [some "007"] (by omega) rfl
    (by intro j hj; omega) (by decide) (by decide) (by decide)

-- ------------------------------------------------------------------
-- C6: prefix + episode + tail composition.
-- ------------------------------------------------------------------

/-- Maximal run of leading digits. -/
def digitRun : List Char → List Char
  | [] => []
  | c :: rest => if isDigitChar c then c :: digitRun rest else []

/-- Leftmost match of the Python regex `E(\d+)` with `re.IGNORECASE`: the
first position holding `E` or `e` followed by at least one digit; group 1
is the maximal digit run. -/
def scanEdigits : List Char → Nat → Option MatchRes
  | [], _ => none
  | c :: rest, pos =>
      if c = 'E' ∨ c = 'e' then
        match rest with
        | r :: _ =>
            if isDigitChar r then
              let run := digitRun rest
              some ⟨pos, pos + 1 + run.length, [some ⟨run⟩], some 1⟩
            else scanEdigits rest (pos + 1)
        | [] => none
      else scanEdigits rest (pos + 1)

/-- The movie-mode preset pattern `E(\d+)` compiled with flag `i`. -/
def matcherEdigitsI : Matcher := fun base => scanEdigits base.data 0

/-- The claim's `middle`: `"."` + the user-fixed suffix when the tail is
replaced, or `"."` + the dot-stripped original tail when preserved (empty
when the stripped tail is empty). -/
def claimMiddle (suffix : Option String) (tail : String) : String :=
  match suffix with
  | some sfx => "." ++ sfx
  | none => if stripDots tail = "" then "" else "." ++ stripDots tail

theorem pick_parts_ep_shape (base : String) :
    ∀ (ms : List Matcher) (pre ep tail : String),
      pick_parts base ms = .ok (some (pre, ep, tail)) → ∃ n : Int, ep = pyStrInt n := by
  intro ms
  induction ms with
  | nil =>
    intro pre ep tail h
    exact absurd h (by simp [pick_parts])
  | cons m rest ih =>
    intro pre ep tail h
    cases hm : m base with
    | none =>
      simp only [pick_parts, hm] at h
      exact ih pre ep tail h
    | some r =>
      cases hli : r.lastindex with
      | none =>
        simp only [pick_parts, hm, hli] at h
        exact ih pre ep tail h
      | some k =>
        cases k with
        | zero =>
          simp only [pick_parts, hm, hli] at h
          exact ih pre ep tail h
        | succ k =>
          cases hg : r.groups.get? 0 with
          | none =>
            simp only [pick_parts, hm, hli, hg] at h
            exact ih pre ep tail h
          | some og =>
            cases og with
            | none =>
              simp only [pick_parts, hm, hli, hg] at h
              exact absurd h (by simp)
            | some g =>
              cases hpi : pyInt g with
              | none =>
                simp only [pick_parts, hm, hli, hg, hpi] at h
                exact ih pre ep tail h
              | some n =>
                simp only [pick_parts, hm, hli, hg, hpi, Except.ok.injEq,
                  Option.some.injEq, Prod.mk.injEq] at h
                exact ⟨n, h.2.1.symm⟩

theorem movieNewName_formula (left : String) (suffix : Option String) (w : Nat)
    (ep tail fname : String) (n : Int) (hep : pyInt ep = some n)
    (hsfx : suffix ≠ some "") :
    movieNewName left suffix w ep tail fname
      = left ++ "." ++ "E" ++ format_number n w ++ claimMiddle suffix tail
        ++ pathSuffix fname := by
  cases suffix with
  | none =>
    simp only [movieNewName, hep, claimMiddle]
    by_cases ht : stripDots tail = ""
    · simp only [ht, if_pos rfl]
      simp only [ne_eq, not_true_eq_false, if_false]
      apply String.ext
      simp [String.data_append, List.append_assoc]
    · simp only [ht, if_neg ht]
      simp only [ne_eq, not_false_eq_true, if_true]
      apply String.ext
      simp [String.data_append, List.append_assoc, ht]
  | some sfx =>
    have hne : sfx ≠ "" := fun hcontra => hsfx (by rw [hcontra])
    simp only [movieNewName, hep, claimMiddle]
    simp only [ne_eq, hne, not_false_eq_true, if_true]
    apply String.ext
    simp [String.data_append, List.append_assoc]

theorem build_plans_matched_go_char (matchers : List Matcher) (left : String)
    (suffix : Option String) (w : Nat) :
    ∀ (files : List FileEntry) (P : List (String × String)),
      build_plans_matched_go matchers left suffix w files = .ok P →
      ∀ e ∈ P, ∃ p, p ∈ files ∧ ∃ pre ep tail,
        pick_parts (pathStem p.name) matchers = .ok (some (pre, ep, tail)) ∧
        e.1 = p.name ∧ e.2 = movieNewName left suffix w ep tail p.name := by
  intro files
  induction files with
  | nil =>
    intro P hP e he
    rw [build_plans_matched_go] at hP
    injection hP with h
    subst h
    simp at he
  | cons p rest ih =>
    intro P hP e he
    simp only [build_plans_matched_go] at hP
    split at hP
    · exact absurd hP (by simp)
    next heq =>
      obtain ⟨q, hq, hex⟩ := ih P hP e he
      exact ⟨q, List.mem_cons_of_mem p hq, hex⟩
    next pre0 ep0 tail0 heq =>
      split at hP
      · exact absurd hP (by simp)
      next plans hrest =>
        injection hP with h
        subst h
        split at he
        next hcond =>
          rcases List.mem_cons.mp he with h | h
          · subst h
            exact ⟨p, List.mem_cons_self p rest, pre0, ep0, tail0, heq, rfl, rfl⟩
          · obtain ⟨q, hq, hex⟩ := ih plans hrest e h
            exact ⟨q, List.mem_cons_of_mem p hq, hex⟩
        next hcond =>
          obtain ⟨q, hq, hex⟩ := ih plans hrest e he
          exact ⟨q, List.mem_cons_of_mem p hq, hex⟩

/-- C6, counterexample. The claimed formula reads
`prefix + "." + "E" + render(parseInt(episode)) + middle`, but the code
first strips one trailing dot from the prefix. For the reachable prefix
`"A."` and file `Show.E1.mkv` the built target is `A.E1.mkv`, not the
claimed `A..E1.mkv`. -/
theorem c6_counterexample :
    build_plans [⟨"Show.E1.mkv", 0⟩] "mkv" (MatchSrc.patterns [matcherEdigitsI]) "A." none 0
      SortKey.byName 0 = .ok [("Show.E1.mkv", "A.E1.mkv")]
    ∧ "A.E1.mkv" ≠ "A." ++ "." ++ "E" ++ format_number 1 0 ++ claimMiddle none "" ++ ".mkv" := by
  constructor
  · rfl
  · decide

/-- C6, amended: in prefix+episode+tail mode every plan entry's target is
`(prefix with one trailing dot stripped) + "." + "E" + render(parseInt(ep))
+ middle + extension`, with `middle` as the claim states it (for a
replacing fixed suffix the interactive flow guarantees it nonempty, here
hypothesis `suffix ≠ some ""`); and Scenario B: `Show.E1.mkv, Show.E2.mkv`
with pattern `E(\d+)`/i, prefix `Show.S01`, preserved tail and no padding
become `Show.S01.E1.mkv, Show.S01.E2.mkv` with unpadded episode digits. -/
theorem c6_amended :
    (∀ (files : List FileEntry) (ext : String) (matchers : List Matcher) (pfx : String)
        (suffix : Option String) (start : Int) (sort_key : SortKey) (padding : Nat)
        (P : List (String × String)),
      build_plans files ext (MatchSrc.patterns matchers) pfx suffix start sort_key padding
        = .ok P →
      suffix ≠ some "" →
      ∀ e ∈ P, ∃ p, p ∈ files ∧ ∃ pre ep tail, ∃ n : Int,
        pick_parts (pathStem p.name) matchers = .ok (some (pre, ep, tail)) ∧
        pyInt ep = some n ∧
        e.1 = p.name ∧
        e.2 = dropTrailingDot pfx ++ "." ++ "E" ++ format_number n padding
          ++ claimMiddle suffix tail ++ pathSuffix p.name)
    ∧ build_plans [⟨"Show.E1.mkv", 0⟩, ⟨"Show.E2.mkv", 0⟩] "mkv"
        (MatchSrc.patterns [matcherEdigitsI]) "Show.S01" none 0 SortKey.byName 0
        = .ok [("Show.E1.mkv", "Show.S01.E1.mkv"), ("Show.E2.mkv", "Show.S01.E2.mkv")] := by
  constructor
  · intro files ext matchers pfx suffix start sort_key padding P hP hsfx e he
    simp only [build_plans] at hP
    obtain ⟨p, hp, pre, ep, tail, hpick, h1, h2⟩ :=
      build_plans_matched_go_char matchers (dropTrailingDot pfx) suffix padding _ P hP e he
    obtain ⟨n, hn⟩ := pick_parts_ep_shape (pathStem p.name) matchers pre ep tail hpick
    have hpi : pyInt ep = some n := by rw [hn]; exact pyInt_pyStrInt n
    refine ⟨p, List.mem_of_mem_filter hp, pre, ep, tail, n, hpick, hpi, h1, ?_⟩
    rw [h2, movieNewName_formula (dropTrailingDot pfx) suffix padding ep tail p.name n hpi hsfx]
  · rfl

theorem c6_amended_witness :
    ∃ p, p ∈ [(⟨"Show.E1.mkv", 0⟩ : FileEntry), ⟨"Show.E2.mkv", 0⟩] ∧ ∃ pre ep tail, ∃ n : Int,
      pick_parts (pathStem p.name) [matcherEdigitsI] = .ok (some (pre, ep, tail)) ∧
      pyInt ep = some n ∧
      ("Show.E1.mkv", "Show.S01.E1.mkv").1 = p.name ∧
      ("Show.E1.mkv", "Show.S01.E1.mkv").2 = dropTrailingDot "Show.S01" ++ "." ++ "E"
        ++ format_number n 0 ++ claimMiddle none tail ++ pathSuffix p.name :=
  c6_amended.1 [⟨"Show.E1.mkv", 0⟩, ⟨"Show.E2.mkv", 0⟩] "mkv" [matcherEdigitsI] "Show.S01"
    none 0 SortKey.byName 0
    [("Show.E1.mkv", "Show.S01.E1.mkv"), ("Show.E2.mkv", "Show.S01.E2.mkv")] rfl
    (by simp) ("Show.E1.mkv", "Show.S01.E1.mkv") (by decide)

-- ------------------------------------------------------------------
-- C2: the two-phase committer.
-- ------------------------------------------------------------------

theorem append_tag_inj (tag : String) {s1 s2 : String} (h : s1 ++ tag = s2 ++ tag) :
    s1 = s2 := by
  have hd := congrArg String.data h
  rw [String.data_append, String.data_append] at hd
  exact String.ext (List.append_cancel_right hd)

theorem applyRenames_append (l1 l2 : List (String × String)) :
    ∀ fs : FS, applyRenames fs (l1 ++ l2)
      = match applyRenames fs l1 with
        | .error e => .error e
        | .ok f1 => applyRenames f1 l2 := by
  induction l1 with
  | nil => intro fs; rfl
  | cons hd l1 ih =>
    intro fs
    obtain ⟨a, b⟩ := hd
    rw [List.cons_append, applyRenames, applyRenames]
    cases osReplace fs a b with
    | none => rfl
    | some fs1 => exact ih fs1

/-- Running a batch of renames whose sources are distinct and present,
whose destinations are distinct, and whose destinations never collide with
a source of the batch: it succeeds, moves every content to its destination,
leaves unrelated names untouched, and vacates sources that are not also
destinations. -/
theorem applyRenames_spec :
    ∀ (rs : List (String × String)) (fs : FS),
      (rs.map Prod.fst).Nodup →
      (rs.map Prod.snd).Nodup →
      (∀ p ∈ rs, fs p.1 ≠ none) →
      (∀ p ∈ rs, ∀ q ∈ rs, p.2 ≠ q.1) →
      ∃ fs', applyRenames fs rs = .ok fs' ∧
        (∀ p ∈ rs, fs' p.2 = fs p.1) ∧
        (∀ x, x ∉ rs.map Prod.fst → x ∉ rs.map Prod.snd → fs' x = fs x) ∧
        (∀ x ∈ rs.map Prod.fst, x ∉ rs.map Prod.snd → fs' x = none) := by
  intro rs
  induction rs with
  | nil =>
    intro fs _ _ _ _
    exact ⟨fs, rfl, by simp, fun x _ _ => rfl, by simp⟩
  | cons hd rest ih =>
    intro fs hndS hndD hdom hDS
    obtain ⟨a, b⟩ := hd
    have hfa : fs a ≠ none := hdom (a, b) (List.mem_cons_self _ _)
    obtain ⟨c, hc⟩ : ∃ c, fs a = some c := by
      cases hfa' : fs a with
      | none => exact absurd hfa' hfa
      | some c => exact ⟨c, rfl⟩
    set fs1 : FS := fun x => if x = b then some c else if x = a then none else fs x with hfs1
    have hstep : applyRenames fs ((a, b) :: rest) = applyRenames fs1 rest := by
      rw [applyRenames]
      unfold osReplace
      rw [hc]
    have hndS' : (a :: rest.map Prod.fst).Nodup := hndS
    have hndD' : (b :: rest.map Prod.snd).Nodup := hndD
    have hba : b ≠ a := hDS (a, b) (List.mem_cons_self _ _) (a, b) (List.mem_cons_self _ _)
    have hbS : ∀ q ∈ rest, b ≠ q.1 :=
      fun q hq => hDS (a, b) (List.mem_cons_self _ _) q (List.mem_cons_of_mem _ hq)
    have haS : a ∉ rest.map Prod.fst := (List.nodup_cons.mp hndS').1
    have hbD : b ∉ rest.map Prod.snd := (List.nodup_cons.mp hndD').1
    have hfs1_src : ∀ p ∈ rest, fs1 p.1 = fs p.1 := by
      intro p hp
      have h1 : p.1 ≠ b := fun hcontra => (hbS p hp) hcontra.symm
      have h2 : p.1 ≠ a := by
        intro hcontra
        exact haS (hcontra ▸ List.mem_map_of_mem Prod.fst hp)
      rw [hfs1]
      simp only [h1, h2, if_false, if_neg h1, if_neg h2]
    obtain ⟨fs', hok, hmain, huntouched, hgone⟩ := ih fs1
      (List.nodup_cons.mp hndS').2
      (List.nodup_cons.mp hndD').2
      (fun p hp => by rw [hfs1_src p hp]; exact hdom p (List.mem_cons_of_mem _ hp))
      (fun p hp q hq =>
        hDS p (List.mem_cons_of_mem _ hp) q (List.mem_cons_of_mem _ hq))
    refine ⟨fs', by rw [hstep]; exact hok, ?_, ?_, ?_⟩
    · intro p hp
      rcases List.mem_cons.mp hp with h | h
      · subst h
        have hb1 : b ∉ rest.map Prod.fst := by
          intro hcontra
          rw [List.mem_map] at hcontra
          obtain ⟨q, hq, hq2⟩ := hcontra
          exact (hbS q hq) hq2.symm
        rw [huntouched b hb1 hbD, hfs1]
        simp only [if_pos rfl]
        exact hc.symm
      · rw [hmain p h, hfs1_src p h]
    · intro x hxS hxD
      have hxa : x ≠ a := by
        intro hcontra
        exact hxS (by rw [List.map_cons]; exact hcontra ▸ List.mem_cons_self _ _)
      have hxb : x ≠ b := by
        intro hcontra
        exact hxD (by rw [List.map_cons]; exact hcontra ▸ List.mem_cons_self _ _)
      have hxS' : x ∉ rest.map Prod.fst := by
        intro hcontra
        exact hxS (by rw [List.map_cons]; exact List.mem_cons_of_mem _ hcontra)
      have hxD' : x ∉ rest.map Prod.snd := by
        intro hcontra
        exact hxD (by rw [List.map_cons]; exact List.mem_cons_of_mem _ hcontra)
      rw [huntouched x hxS' hxD', hfs1]
      simp only [if_neg hxb, if_neg hxa]
    · intro x hxS hxD
      have hxb : x ≠ b := by
        intro hcontra
        exact hxD (by rw [List.map_cons]; exact hcontra ▸ List.mem_cons_self _ _)
      have hxD' : x ∉ rest.map Prod.snd := by
        intro hcontra
        exact hxD (by rw [List.map_cons]; exact List.mem_cons_of_mem _ hcontra)
      rw [List.map_cons] at hxS
      rcases List.mem_cons.mp hxS with h | h
      · subst h
        have haS' : x ∉ rest.map Prod.fst := haS
        rw [huntouched x haS' hxD', hfs1]
        simp [hxb]
      · exact hgone x h hxD'

/-- C2. The committer first renames, in plan order, every source to
`source ++ tag`, then in plan order each temporary name to its final
target (`two_phase_steps`). For a well-formed plan — sources distinct and
present, the spec's RenamePlan invariant that every source refers to an
existing file, with one entry per file — whose targets are pairwise
distinct and disjoint from existing files not among the sources, and a
batch-unique tag (the claim's process-and-time-unique marker: temporary
names collide with no source or target of the batch), the commit succeeds,
every source's original content ends up under that entry's target name,
and every other existing file is untouched — no rename overwrites a file
still awaited by a later step, and no content is lost. -/
theorem c2_two_phase_no_content_loss (tag : String) (plans : List (String × String)) (fs : FS)
    (hndS : (plans.map Prod.fst).Nodup)
    (hndD : (plans.map Prod.snd).Nodup)
    (hdom : ∀ p ∈ plans, fs p.1 ≠ none)
    (hdisj : ∀ p ∈ plans, fs p.2 ≠ none → p.2 ∈ plans.map Prod.fst)
    (htmp_src : ∀ p ∈ plans, ∀ q ∈ plans, p.1 ++ tag ≠ q.1)
    (htmp_dst : ∀ p ∈ plans, ∀ q ∈ plans, p.1 ++ tag ≠ q.2) :
    ∃ fs', two_phase_rename tag plans fs = .ok fs' ∧
      (∀ p ∈ plans, fs' p.2 = fs p.1) ∧
      (∀ x, fs x ≠ none → x ∉ plans.map Prod.fst →
        (∀ p ∈ plans, x ≠ p.1 ++ tag) → fs' x = fs x) := by
  set rs1 : List (String × String) := plans.map (fun sd => (sd.1, sd.1 ++ tag)) with hrs1
  set rs2 : List (String × String) := plans.map (fun sd => (sd.1 ++ tag, sd.2)) with hrs2
  have htag_inj : Function.Injective (fun s : String => s ++ tag) :=
    fun s1 s2 h => append_tag_inj tag h
  have hm1S : rs1.map Prod.fst = plans.map Prod.fst := by
    rw [hrs1, List.map_map]
    rfl
  have hm1D : rs1.map Prod.snd = (plans.map Prod.fst).map (fun s => s ++ tag) := by
    rw [hrs1, List.map_map, List.map_map]
    rfl
  have hm2S : rs2.map Prod.fst = (plans.map Prod.fst).map (fun s => s ++ tag) := by
    rw [hrs2, List.map_map, List.map_map]
    rfl
  have hm2D : rs2.map Prod.snd = plans.map Prod.snd := by
    rw [hrs2, List.map_map]
    rfl
  have htmpsND : ((plans.map Prod.fst).map (fun s => s ++ tag)).Nodup := hndS.map htag_inj
  obtain ⟨fs1, hok1, hmain1, hun1, _⟩ := applyRenames_spec rs1 fs
    (by rw [hm1S]; exact hndS)
    (by rw [hm1D]; exact htmpsND)
    (by
      intro p hp
      rw [hrs1, List.mem_map] at hp
      obtain ⟨q, hq, rfl⟩ := hp
      exact hdom q hq)
    (by
      intro p hp q' hq'
      rw [hrs1, List.mem_map] at hp hq'
      obtain ⟨q, hq, rfl⟩ := hp
      obtain ⟨q2, hq2, rfl⟩ := hq'
      exact htmp_src q hq q2 hq2)
  obtain ⟨fs2, hok2, hmain2, hun2, _⟩ := applyRenames_spec rs2 fs1
    (by rw [hm2S]; exact htmpsND)
    (by rw [hm2D]; exact hndD)
    (by
      intro p hp
      rw [hrs2, List.mem_map] at hp
      obtain ⟨q, hq, rfl⟩ := hp
      have := hmain1 (q.1, q.1 ++ tag) (by rw [hrs1, List.mem_map]; exact ⟨q, hq, rfl⟩)
      simp only at this
      rw [this]
      exact hdom q hq)
    (by
      intro p hp q' hq'
      rw [hrs2, List.mem_map] at hp hq'
      obtain ⟨q, hq, rfl⟩ := hp
      obtain ⟨q2, hq2, rfl⟩ := hq'
      exact fun hcontra => htmp_dst q2 hq2 q hq hcontra.symm)
  refine ⟨fs2, ?_, ?_, ?_⟩
  · unfold two_phase_rename
    have hsteps : two_phase_steps tag plans = rs1 ++ rs2 := rfl
    rw [hsteps, applyRenames_append, hok1]
    show (match applyRenames fs1 rs2 with
      | Except.error fsE => Except.error (3, fsE)
      | Except.ok f => Except.ok f) = Except.ok fs2
    rw [hok2]
  · intro p hp
    have h2 := hmain2 (p.1 ++ tag, p.2) (by rw [hrs2, List.mem_map]; exact ⟨p, hp, rfl⟩)
    simp only at h2
    have h1 := hmain1 (p.1, p.1 ++ tag) (by rw [hrs1, List.mem_map]; exact ⟨p, hp, rfl⟩)
    simp only at h1
    rw [h2, h1]
  · intro x hx hxS hxT
    have hxD : x ∉ plans.map Prod.snd := by
      intro hcontra
      rw [List.mem_map] at hcontra
      obtain ⟨q, hq, rfl⟩ := hcontra
      exact hxS (hdisj q hq hx)
    have hxtmp : x ∉ (plans.map Prod.fst).map (fun s => s ++ tag) := by
      intro hcontra
      rw [List.mem_map] at hcontra
      obtain ⟨s, hs, rfl⟩ := hcontra
      rw [List.mem_map] at hs
      obtain ⟨q, hq, rfl⟩ := hs
      exact hxT q hq rfl
    rw [hun2 x (by rw [hm2S]; exact hxtmp) (by rw [hm2D]; exact hxD),
      hun1 x (by rw [hm1S]; exact hxS) (by rw [hm1D]; exact hxtmp)]

theorem c2_two_phase_no_content_loss_witness :
    ∃ fs', two_phase_rename "T" [("a.txt", "b.txt"), ("b.txt", "a.txt")]
        (fun n => if n = "a.txt" then some 1 else if n = "b.txt" then some 2 else none)
      = .ok fs' ∧ fs' "b.txt" = some 1 ∧ fs' "a.txt" = some 2 := by
  obtain ⟨fs', hok, hmain, _⟩ := c2_two_phase_no_content_loss "T"
    [("a.txt", "b.txt"), ("b.txt", "a.txt")]
    (fun n => if n = "a.txt" then some 1 else if n = "b.txt" then some 2 else none)
    (by decide) (by decide)
    (by intro p hp; fin_cases hp <;> simp)
    (by intro p hp; fin_cases hp <;> simp)
    (by intro p hp q hq; fin_cases hp <;> fin_cases hq <;> simp)
    (by intro p hp q hq; fin_cases hp <;> fin_cases hq <;> simp)
  refine ⟨fs', hok, ?_, ?_⟩
  · have := hmain ("a.txt", "b.txt") (by simp)
    simpa using this
  · have := hmain ("b.txt", "a.txt") (by simp)
    simpa using this
